import Mathlib

/-!
Verification of the camera-pose normalization pipeline of
`scripts/meshroom2nerf.py`: a shallow embedding over exact real arithmetic.

The script converts Meshroom structure-from-motion output into a NeRF
`transforms.json`: it extracts a camera-to-world matrix per view (stage 1),
rotates the aggregate up vector onto the z axis (stage 2), recenters on the
weighted closest point of all viewing-ray pairs (stage 3), and rescales so the
mean camera distance from the origin is 4.0 (stage 4).  Floating-point numbers
are modelled as exact reals; numpy's silent division by zero corresponds to
Lean's `x / 0 = 0` convention and is called out where it matters.
-/

namespace Meshroom2Nerf

noncomputable section

open scoped Classical

/-- A length-3 numpy array of floats, modelled as three exact reals. -/
structure Vec3 where
  x : ℝ
  y : ℝ
  z : ℝ

/-- Elementwise vector addition. -/
def vadd (a b : Vec3) : Vec3 := ⟨a.x + b.x, a.y + b.y, a.z + b.z⟩

/-- Elementwise vector subtraction. -/
def vsub (a b : Vec3) : Vec3 := ⟨a.x - b.x, a.y - b.y, a.z - b.z⟩

/-- Scalar times vector. -/
def smul (t : ℝ) (a : Vec3) : Vec3 := ⟨t * a.x, t * a.y, t * a.z⟩

/-- Vector divided by a scalar (numpy `a / t`). -/
def vdiv (a : Vec3) (t : ℝ) : Vec3 := ⟨a.x / t, a.y / t, a.z / t⟩

/-- Dot product (`np.dot`). -/
def dot (a b : Vec3) : ℝ := a.x * b.x + a.y * b.y + a.z * b.z

/-- Cross product (`np.cross`). -/
def cross (a b : Vec3) : Vec3 :=
  ⟨a.y * b.z - a.z * b.y, a.z * b.x - a.x * b.z, a.x * b.y - a.y * b.x⟩

/-- Euclidean norm (`np.linalg.norm`). -/
def norm3 (a : Vec3) : ℝ := Real.sqrt (dot a a)

/-- The determinant of the 3x3 matrix whose ROWS are `r0, r1, r2`
    (`np.linalg.det([r0, r1, r2])`), i.e. the scalar triple product. -/
def det3 (r0 r1 r2 : Vec3) : ℝ := dot r0 (cross r1 r2)

/-- The zero vector (`np.zeros(3)`). -/
def vzero : Vec3 := ⟨0, 0, 0⟩

/-- Embedding of `closest_point_2_lines(oa, da, ob, db)` from
    `scripts/meshroom2nerf.py` (lines 27-40): returns the point closest to both
    rays `o + t*d` together with a weight that goes to 0 for parallel lines. -/
def closest_point_2_lines (oa da ob db : Vec3) : Vec3 × ℝ :=
  let da' := vdiv da (norm3 da)
  let db' := vdiv db (norm3 db)
  let c := cross da' db'
  let denom := norm3 c ^ 2
  let t := vsub ob oa
  let ta0 := det3 t db' c / (denom + 1e-10)
  let tb0 := det3 t da' c / (denom + 1e-10)
  let ta := if 0 < ta0 then 0 else ta0
  let tb := if 0 < tb0 then 0 else tb0
  (smul 0.5 (vadd (vadd oa (smul ta da')) (vadd ob (smul tb db'))), denom)

/-- Embedding of `rotmat(a, b)` (lines 18-24): the Rodrigues-style rotation
    taking direction `a` to direction `b`. -/
def rotmat (a b : Vec3) : Matrix (Fin 3) (Fin 3) ℝ :=
  let a' := vdiv a (norm3 a)
  let b' := vdiv b (norm3 b)
  let v := cross a' b'
  let c := dot a' b'
  let s := norm3 v
  let kmat : Matrix (Fin 3) (Fin 3) ℝ :=
    !![0, -v.z, v.y; v.z, 0, -v.x; -v.y, v.x, 0]
  1 + kmat + ((1 - c) / (s ^ 2 + 1e-10)) • (kmat * kmat)

/-! ### The pipeline over 4x4 matrices -/

/-- A 4x4 numpy array of floats. -/
abbrev Mat4 := Matrix (Fin 4) (Fin 4) ℝ

/-- The 4x4 `rotation` array built at lines 67-92: Meshroom's 9 rotation
    scalars `r 0 .. r 8` are placed so that consecutive triples become the
    columns of the upper-left 3x3 block; last row and column from the identity. -/
def rotAug (r : Fin 9 → ℝ) : Mat4 :=
  !![r 0, r 3, r 6, 0;
     r 1, r 4, r 7, 0;
     r 2, r 5, r 8, 0;
     0,   0,   0,   1]

/-- The upper-left 3x3 block of `rotAug` on its own. -/
def rot3 (r : Fin 9 → ℝ) : Matrix (Fin 3) (Fin 3) ℝ :=
  !![r 0, r 3, r 6;
     r 1, r 4, r 7;
     r 2, r 5, r 8]

/-- The 4x4 `c` array built at lines 94-119: translation by the negated
    camera center. -/
def transNeg (c : Vec3) : Mat4 :=
  !![1, 0, 0, -c.x;
     0, 1, 0, -c.y;
     0, 0, 1, -c.z;
     0, 0, 0, 1]

/-- Translation by `+c`; the inverse of `transNeg c`. -/
def transPos (c : Vec3) : Mat4 :=
  !![1, 0, 0, c.x;
     0, 1, 0, c.y;
     0, 0, 1, c.z;
     0, 0, 0, 1]

/-- Line 121: `extrinsic = np.matmul(rotation, c)`. -/
def extrinsic (r : Fin 9 → ℝ) (c : Vec3) : Mat4 := rotAug r * transNeg c

/-- Line 124 / 125: negate rows 0-2 of column `j` (`c2w[0:3, j] *= -1`). -/
def negColTop (j : Fin 4) (m : Mat4) : Mat4 :=
  Matrix.of fun i k => if k = j ∧ i ≠ 3 then -m i k else m i k

/-- Line 126: `c2w = c2w[[1, 0, 2, 3], :]` (swap rows 0 and 1). -/
def permRows (m : Mat4) : Mat4 :=
  Matrix.of fun i k => m (![1, 0, 2, 3] i) k

/-- Line 127: `c2w[2, :] *= -1` (negate the whole row of index 2). -/
def negRow2 (m : Mat4) : Mat4 :=
  Matrix.of fun i k => if i = 2 then -m i k else m i k

/-- The four fixed axis-convention transforms of lines 124-127, in source
    order: negate column 2, negate column 1, permute rows (1,0,2,3),
    negate row 2. -/
def convention (m : Mat4) : Mat4 := negRow2 (permRows (negColTop 1 (negColTop 2 m)))

/-- Stage 1, one view (lines 67-127): camera-to-world matrix from the SfM
    rotation scalars and center, `np.linalg.inv` modelled by Mathlib's
    matrix inverse. -/
def poseC2w (r : Fin 9 → ℝ) (c : Vec3) : Mat4 := convention (extrinsic r c)⁻¹

/-- The upper-left 3x3 rotation block of a 4x4 transform. -/
def block3 (m : Mat4) : Matrix (Fin 3) (Fin 3) ℝ :=
  !![m 0 0, m 0 1, m 0 2;
     m 1 0, m 1 1, m 1 2;
     m 2 0, m 2 1, m 2 2]

/-- Rows 0-2 of column `j` of a 4x4 transform, as a `Vec3`
    (numpy `m[0:3, j]`). -/
def colv (m : Mat4) (j : Fin 4) : Vec3 := ⟨m 0 j, m 1 j, m 2 j⟩

/-- A 4x4 transform assembled from a 3x3 block and a translation column,
    with last row `(0,0,0,1)`. -/
def mk4 (B : Matrix (Fin 3) (Fin 3) ℝ) (t : Vec3) : Mat4 :=
  !![B 0 0, B 0 1, B 0 2, t.x;
     B 1 0, B 1 1, B 1 2, t.y;
     B 2 0, B 2 1, B 2 2, t.z;
     0,     0,     0,     1]

/-- `np.pad(R, [0,1])` with the corner set to 1 (lines 141-142), and also the
    block-diagonal extension used to state structure lemmas. -/
def pad4 (B : Matrix (Fin 3) (Fin 3) ℝ) : Mat4 := mk4 B vzero

/-- One pose record: the 9 rotation scalars and the camera center. -/
structure SfmPose where
  rot : Fin 9 → ℝ
  center : Vec3

/-- Stage 1 over the whole dataset: the list of camera-to-world matrices. -/
def stage1 (ps : List SfmPose) : List Mat4 :=
  ps.map fun p => poseC2w p.rot p.center

/-- Line 55 / 129: the accumulated up vector, the sum of `c2w[0:3, 1]`
    over all produced frames. -/
def upSum (l : List Mat4) : Vec3 := l.foldl (fun u m => vadd u (colv m 1)) vzero

/-- Line 138: `up = up / np.linalg.norm(up)`. -/
def upNormed (l : List Mat4) : Vec3 := vdiv (upSum l) (norm3 (upSum l))

/-- Line 140: `R = rotmat(up, [0, 0, 1])`. -/
def upR (l : List Mat4) : Matrix (Fin 3) (Fin 3) ℝ := rotmat (upNormed l) ⟨0, 0, 1⟩

/-- Stage 2 (lines 136-145): left-multiply every transform by the padded
    up-alignment rotation. -/
def stage2 (l : List Mat4) : List Mat4 := l.map fun m => pad4 (upR l) * m

/-- Line 155: the closest-point/weight of one ordered frame pair, from
    ray origins `m[0:3,3]` and ray directions `m[0:3,2]`. -/
def pairPW (mf mg : Mat4) : Vec3 × ℝ :=
  closest_point_2_lines (colv mf 3) (colv mf 2) (colv mg 3) (colv mg 2)

/-- The weight a pair adds to `totw` (lines 156-158): its weight if above
    the 0.01 acceptance threshold, else nothing. -/
def wContrib (mf mg : Mat4) : ℝ :=
  if 0.01 < (pairPW mf mg).2 then (pairPW mf mg).2 else 0

/-- The vector a pair adds to `totp` (lines 156-157): `p * w` if the weight
    is above the 0.01 acceptance threshold, else nothing. -/
def pContrib (mf mg : Mat4) : Vec3 :=
  if 0.01 < (pairPW mf mg).2 then smul (pairPW mf mg).2 (pairPW mf mg).1 else vzero

/-- Sum of a list of vectors. -/
def vlistSum (l : List Vec3) : Vec3 := l.foldr vadd vzero

/-- Lines 149-158: the accumulated weight over all ordered frame pairs. -/
def totw (l : List Mat4) : ℝ :=
  (l.map fun mf => (l.map fun mg => wContrib mf mg).sum).sum

/-- Lines 149-158: the accumulated weighted point over all ordered frame
    pairs. -/
def totp (l : List Mat4) : Vec3 :=
  vlistSum (l.map fun mf => vlistSum (l.map fun mg => pContrib mf mg))

/-- Line 159: `totp /= totw` — the attention point.  In this exact model a
    zero `totw` makes the quotient the zero vector; numpy would emit NaN. -/
def attnPoint (l : List Mat4) : Vec3 := vdiv (totp l) (totw l)

/-- The component of a `Vec3` at a 4x4 row index, 0 past the third row. -/
def vcomp (v : Vec3) : Fin 4 → ℝ := ![v.x, v.y, v.z, 0]

/-- Stage 3 (lines 161-162): subtract the attention point from every
    translation column. -/
def stage3 (l : List Mat4) : List Mat4 :=
  l.map fun m =>
    Matrix.of fun i j =>
      if j = 3 ∧ i ≠ 3 then m i j - vcomp (attnPoint l) i else m i j

/-- Lines 164-167: the mean distance of the translation columns from the
    origin (`avglen`); division by the frame count. -/
def avglen (l : List Mat4) : ℝ := (l.map fun m => norm3 (colv m 3)).sum / l.length

/-- Stage 4 (lines 169-170): scale every translation column by
    `4.0 / avglen`. -/
def stage4 (l : List Mat4) : List Mat4 :=
  l.map fun m =>
    Matrix.of fun i j =>
      if j = 3 ∧ i ≠ 3 then 4.0 / avglen l * m i j else m i j

/-- The whole pipeline on matched poses: stages 1-4 in order. -/
def pipeline (ps : List SfmPose) : List Mat4 := stage4 (stage3 (stage2 (stage1 ps)))

/-- A transform with its translation column scaled by `k` (rotation block and
    last row untouched); the shape in which a global rescaling of the input
    camera centers propagates through the pipeline. -/
def tscale (k : ℝ) (m : Mat4) : Mat4 :=
  Matrix.of fun i j => if j = 3 ∧ i ≠ 3 then k * m i j else m i j

/-- An `SfmPose` with its camera center multiplied by `k`. -/
def scalePose (k : ℝ) (p : SfmPose) : SfmPose := ⟨p.rot, smul k p.center⟩

/-! ### View / pose matching (lines 48-63, 131-134) -/

/-- One entry of `sfm["views"]`. -/
structure SfmView where
  viewId : String
  poseId : String
  path : String

/-- One entry of `sfm["poses"]`, flattened to what the script reads. -/
structure PoseEntry where
  poseId : String
  rot : Fin 9 → ℝ
  center : Vec3

/-- Lines 48-51: `poseMap[pose["poseId"]] = pose` — a later entry with the
    same id overwrites an earlier one; lookup of a missing id fails. -/
def poseLookup (ps : List PoseEntry) (pid : String) : Option PoseEntry :=
  ps.foldl (fun acc p => if p.poseId = pid then some p else acc) none

/-- `os.path.basename`, for slash-separated paths. -/
def basename (p : String) : String := (p.splitOn "/").getLastD ""

/-- One output frame: relative image path plus camera-to-world transform. -/
structure NamedFrame where
  file_path : String
  mat : Mat4

/-- Lines 56-134: the view loop.  A view whose pose id has no entry is
    skipped (`except KeyError: continue`); otherwise exactly one frame is
    appended. -/
def extractFrames (imgpath : String) (ps : List PoseEntry) : List SfmView → List NamedFrame
  | [] => []
  | v :: vs =>
    match poseLookup ps v.poseId with
    | none => extractFrames imgpath ps vs
    | some p =>
        { file_path := imgpath ++ "/" ++ basename v.path,
          mat := poseC2w p.rot p.center } :: extractFrames imgpath ps vs

/-- The frame a view would produce, if its pose id resolves (junk identity
    transform otherwise; only used beneath a filter that excludes that case). -/
def frameOfView (imgpath : String) (ps : List PoseEntry) (v : SfmView) : NamedFrame :=
  { file_path := imgpath ++ "/" ++ basename v.path,
    mat := (poseLookup ps v.poseId).elim 1 fun p => poseC2w p.rot p.center }

/-! ### Definitions that follow the spec's words (for comparison only) -/

/-- Modelled from the claim's words for C3: an `R_aug` that places the columns
    of the column-major rotation (the consecutive scalar triples) into its
    first three ROWS — the transpose of what the script builds. -/
def rotAugSpecC3 (r : Fin 9 → ℝ) : Mat4 :=
  !![r 0, r 1, r 2, 0;
     r 3, r 4, r 5, 0;
     r 6, r 7, r 8, 0;
     0,   0,   0,   1]

/-- The claim C3's pose-extraction algorithm, with its transposed `R_aug`
    followed by the same inversion and convention steps. -/
def poseC2wSpecC3 (r : Fin 9 → ℝ) (c : Vec3) : Mat4 :=
  convention (rotAugSpecC3 r * transNeg c)⁻¹

/-- The column-negation step (a) of C3 as a matrix product: right
    multiplication by `diag(1,-1,-1,1)`. -/
def colFlipMat : Mat4 := !![1, 0, 0, 0; 0, -1, 0, 0; 0, 0, -1, 0; 0, 0, 0, 1]

/-- The row-permutation step (b) of C3 as a matrix product: left
    multiplication by the (1,0,2,3) permutation matrix. -/
def permMat : Mat4 := !![0, 1, 0, 0; 1, 0, 0, 0; 0, 0, 1, 0; 0, 0, 0, 1]

/-- The row-negation step (c) of C3 as a matrix product: left multiplication
    by `diag(1,1,-1,1)`. -/
def negRow2Mat : Mat4 := !![1, 0, 0, 0; 0, 1, 0, 0; 0, 0, -1, 0; 0, 0, 0, 1]

/-- 3x3 pieces of the convention transforms: `diag(1,-1,-1)` (column flips). -/
def F3 : Matrix (Fin 3) (Fin 3) ℝ := !![1, 0, 0; 0, -1, 0; 0, 0, -1]

/-- Row swap 0/1 as a 3x3 matrix. -/
def P3 : Matrix (Fin 3) (Fin 3) ℝ := !![0, 1, 0; 1, 0, 0; 0, 0, 1]

/-- `diag(1,1,-1)` (row-2 negation). -/
def D3 : Matrix (Fin 3) (Fin 3) ℝ := !![1, 0, 0; 0, 1, 0; 0, 0, -1]

/-- Orthonormality of a 3x3 block within tolerance `t`: all column dot
    products are within `t` of the identity's entries. -/
def orthoTol (B : Matrix (Fin 3) (Fin 3) ℝ) (t : ℝ) : Prop :=
  ∀ i j : Fin 3, abs ((Matrix.transpose B * B) i j - (1 : Matrix (Fin 3) (Fin 3) ℝ) i j) ≤ t

/-- A 3x3 matrix applied to a 3-vector (numpy `M @ v`). -/
def matVec (M : Matrix (Fin 3) (Fin 3) ℝ) (v : Vec3) : Vec3 :=
  ⟨M 0 0 * v.x + M 0 1 * v.y + M 0 2 * v.z,
   M 1 0 * v.x + M 1 1 * v.y + M 1 2 * v.z,
   M 2 0 * v.x + M 2 1 * v.y + M 2 2 * v.z⟩

/-- Modelled from claim C7's words: the Rodrigues construction
    `I + K + K^2 (1-cos)/(sin^2 + 1e-10)` built from the unnormalized cross
    product of `u` and `(0,0,1)`. -/
def rodriguesSpecC7 (u : Vec3) : Matrix (Fin 3) (Fin 3) ℝ :=
  let v := cross u ⟨0, 0, 1⟩
  let c := dot u ⟨0, 0, 1⟩
  let kmat : Matrix (Fin 3) (Fin 3) ℝ :=
    !![0, -v.z, v.y; v.z, 0, -v.x; -v.y, v.x, 0]
  1 + kmat + ((1 - c) / (norm3 v ^ 2 + 1e-10)) • (kmat * kmat)

/-- The exact residual factor of the guarded Rodrigues rotation: applying the
    up-alignment rotation to a unit `u` gives `(0,0,1) + deltaC7 u * u`. -/
def deltaC7 (u : Vec3) : ℝ :=
  (1 - u.z) * 1e-10 / ((u.x ^ 2 + u.y ^ 2) + 1e-10)

/-- The Rodrigues coefficient `(1-cos)/(sin^2 + 1e-10)` of `rotmat u (0,0,1)`
    for a unit `u`. -/
def kUp (u : Vec3) : ℝ := (1 - u.z) / ((u.x ^ 2 + u.y ^ 2) + 1e-10)

/-- The orthonormality-defect factor of the guarded up rotation: for unit `u`,
    `R^T R - 1` has entries `-(coef) * gUp u` with `coef` among
    `x^2, xy, y^2, x^2+y^2`. -/
def gUp (u : Vec3) : ℝ :=
  1 - 2 * kUp u + kUp u ^ 2 * (u.x ^ 2 + u.y ^ 2)

/-! ### Basic vector lemmas -/

theorem Vec3.ext_iff' {a b : Vec3} : a = b ↔ a.x = b.x ∧ a.y = b.y ∧ a.z = b.z := by
  constructor
  · rintro rfl; exact ⟨rfl, rfl, rfl⟩
  · rintro ⟨hx, hy, hz⟩; cases a; cases b; simp_all

theorem dot_self_nonneg (a : Vec3) : 0 ≤ dot a a := by
  unfold dot; nlinarith [sq_nonneg a.x, sq_nonneg a.y, sq_nonneg a.z]

theorem dot_self_eq_zero {a : Vec3} : dot a a = 0 ↔ a = vzero := by
  unfold dot vzero
  constructor
  · intro h
    have hx : a.x * a.x = 0 := by nlinarith [mul_self_nonneg a.x, mul_self_nonneg a.y, mul_self_nonneg a.z]
    have hy : a.y * a.y = 0 := by nlinarith [mul_self_nonneg a.x, mul_self_nonneg a.y, mul_self_nonneg a.z]
    have hz : a.z * a.z = 0 := by nlinarith [mul_self_nonneg a.x, mul_self_nonneg a.y, mul_self_nonneg a.z]
    rw [Vec3.ext_iff']
    exact ⟨mul_self_eq_zero.mp hx, mul_self_eq_zero.mp hy, mul_self_eq_zero.mp hz⟩
  · intro h; subst h; norm_num

theorem norm3_nonneg (a : Vec3) : 0 ≤ norm3 a := Real.sqrt_nonneg _

theorem norm3_sq (a : Vec3) : norm3 a ^ 2 = dot a a := by
  unfold norm3; exact Real.sq_sqrt (dot_self_nonneg a)

theorem norm3_eq_zero {a : Vec3} : norm3 a = 0 ↔ a = vzero := by
  unfold norm3
  rw [Real.sqrt_eq_zero (dot_self_nonneg a), dot_self_eq_zero]

theorem norm3_pos {a : Vec3} (h : a ≠ vzero) : 0 < norm3 a :=
  lt_of_le_of_ne (norm3_nonneg a) (fun e => h (norm3_eq_zero.mp e.symm))

theorem norm3_vzero : norm3 vzero = 0 := norm3_eq_zero.mpr rfl

theorem norm3_smul (t : ℝ) (a : Vec3) : norm3 (smul t a) = |t| * norm3 a := by
  unfold norm3 smul dot
  have h : (t * a.x * (t * a.x) + t * a.y * (t * a.y) + t * a.z * (t * a.z))
      = t ^ 2 * (a.x * a.x + a.y * a.y + a.z * a.z) := by ring
  rw [h, Real.sqrt_mul (sq_nonneg t), Real.sqrt_sq_eq_abs]

theorem dot_vdiv_self {a : Vec3} (h : a ≠ vzero) :
    dot (vdiv a (norm3 a)) (vdiv a (norm3 a)) = 1 := by
  have h0 : dot a a ≠ 0 := fun e => h (dot_self_eq_zero.mp e)
  have hn : norm3 a * norm3 a = dot a a := by
    have := norm3_sq a; nlinarith [this]
  have hnz : norm3 a ≠ 0 := fun e => h (norm3_eq_zero.mp e)
  unfold vdiv dot
  field_simp
  unfold dot at hn
  nlinarith [hn]

/-- Lagrange's identity for the embedded cross and dot products. -/
theorem cross_dot_self (a b : Vec3) :
    dot (cross a b) (cross a b) = dot a a * dot b b - dot a b ^ 2 := by
  unfold dot cross; ring

theorem cross_self (a : Vec3) : cross a a = vzero := by
  unfold cross vzero; rw [Vec3.ext_iff']; refine ⟨by ring, by ring, by ring⟩

/-! ### The convergence weight of `closest_point_2_lines` -/

theorem cp2l_snd (oa da ob db : Vec3) :
    (closest_point_2_lines oa da ob db).2
      = norm3 (cross (vdiv da (norm3 da)) (vdiv db (norm3 db))) ^ 2 := rfl

theorem cp2l_weight_eq {oa da ob db : Vec3} (ha : da ≠ vzero) (hb : db ≠ vzero) :
    (closest_point_2_lines oa da ob db).2
      = 1 - dot (vdiv da (norm3 da)) (vdiv db (norm3 db)) ^ 2 := by
  rw [cp2l_snd, norm3_sq, cross_dot_self, dot_vdiv_self ha, dot_vdiv_self hb]
  ring

theorem cross_vdiv_scale (a b : Vec3) (s t : ℝ) (hs : s ≠ 0) (ht : t ≠ 0) :
    cross a b = smul (s * t) (cross (vdiv a s) (vdiv b t)) := by
  unfold cross vdiv smul
  rw [Vec3.ext_iff']
  refine ⟨?_, ?_, ?_⟩ <;> (dsimp only; field_simp; try ring)

/-- The vector triple-product identity `a x (a x b) = (a.b) a - (a.a) b`. -/
theorem cross_triple (a b : Vec3) :
    cross a (cross a b) = vsub (smul (dot a b) a) (smul (dot a a) b) := by
  unfold cross vsub smul dot
  rw [Vec3.ext_iff']
  refine ⟨by ring, by ring, by ring⟩

theorem cross_eq_zero_collinear {a b : Vec3} (ha : a ≠ vzero)
    (h : cross a b = vzero) : ∃ t : ℝ, b = smul t a := by
  have h0 : dot a a ≠ 0 := fun e => ha (dot_self_eq_zero.mp e)
  unfold cross vzero at h
  rw [Vec3.ext_iff'] at h
  obtain ⟨h1, h2, h3⟩ := h
  dsimp only at h1 h2 h3
  have e1 : b.x * dot a a = dot a b * a.x := by
    unfold dot; linear_combination (-a.y) * h3 + a.z * h2
  have e2 : b.y * dot a a = dot a b * a.y := by
    unfold dot; linear_combination a.x * h3 + (-a.z) * h1
  have e3 : b.z * dot a a = dot a b * a.z := by
    unfold dot; linear_combination (-a.x) * h2 + a.y * h1
  refine ⟨dot a b / dot a a, ?_⟩
  unfold smul
  rw [Vec3.ext_iff']
  refine ⟨?_, ?_, ?_⟩ <;> (dsimp only; field_simp; linarith)

theorem collinear_cross_vdiv_zero {a b : Vec3} (t : ℝ) (h : b = smul t a) :
    cross (vdiv a (norm3 a)) (vdiv b (norm3 b)) = vzero := by
  subst h
  unfold cross vdiv smul vzero
  rw [Vec3.ext_iff']
  refine ⟨by ring, by ring, by ring⟩

theorem smul_vzero (t : ℝ) : smul t vzero = vzero := by
  unfold smul vzero; rw [Vec3.ext_iff']; norm_num

/-- C10: for nonzero ray directions, the weight returned by
    `closest_point_2_lines` is the squared norm of the cross product of the two
    normalized directions; it always lies in `[0,1]`; it is zero exactly when
    the directions are parallel or anti-parallel; and a ray paired with itself
    yields weight exactly 0, hence never passes the fixed 0.01 acceptance
    threshold. -/
theorem C10_weight_of_pair (oa da ob db : Vec3) (ha : da ≠ vzero) (hb : db ≠ vzero) :
    (closest_point_2_lines oa da ob db).2
        = norm3 (cross (vdiv da (norm3 da)) (vdiv db (norm3 db))) ^ 2
      ∧ 0 ≤ (closest_point_2_lines oa da ob db).2
      ∧ (closest_point_2_lines oa da ob db).2 ≤ 1
      ∧ ((closest_point_2_lines oa da ob db).2 = 0 ↔ ∃ t : ℝ, db = smul t da)
      ∧ (closest_point_2_lines oa da oa da).2 = 0
      ∧ ¬ 0.01 < (closest_point_2_lines oa da oa da).2 := by
  have hself : (closest_point_2_lines oa da oa da).2 = 0 := by
    rw [cp2l_snd, cross_self, norm3_vzero]; norm_num
  refine ⟨cp2l_snd oa da ob db, ?_, ?_, ⟨?_, ?_⟩, hself, by rw [hself]; norm_num⟩
  · rw [cp2l_snd, norm3_sq]; exact dot_self_nonneg _
  · rw [cp2l_weight_eq ha hb]
    nlinarith [sq_nonneg (dot (vdiv da (norm3 da)) (vdiv db (norm3 db)))]
  · intro h
    rw [cp2l_snd, norm3_sq] at h
    have hc : cross (vdiv da (norm3 da)) (vdiv db (norm3 db)) = vzero :=
      dot_self_eq_zero.mp h
    have hna : norm3 da ≠ 0 := fun e => ha (norm3_eq_zero.mp e)
    have hnb : norm3 db ≠ 0 := fun e => hb (norm3_eq_zero.mp e)
    have hab : cross da db = vzero := by
      rw [cross_vdiv_scale da db (norm3 da) (norm3 db) hna hnb, hc, smul_vzero]
    exact cross_eq_zero_collinear ha hab
  · rintro ⟨t, ht⟩
    rw [cp2l_snd, collinear_cross_vdiv_zero t ht, norm3_vzero]
    norm_num

/-! ### Structure of the stage-1 pose extraction -/

theorem colv_mk4 (B : Matrix (Fin 3) (Fin 3) ℝ) (t : Vec3) : colv (mk4 B t) 3 = t := by
  unfold colv mk4
  rw [Vec3.ext_iff']
  refine ⟨?_, ?_, ?_⟩ <;> simp

theorem colv_mk4_one (B : Matrix (Fin 3) (Fin 3) ℝ) (t : Vec3) :
    colv (mk4 B t) 1 = ⟨B 0 1, B 1 1, B 2 1⟩ := by
  unfold colv mk4
  rw [Vec3.ext_iff']
  refine ⟨?_, ?_, ?_⟩ <;> simp

theorem block3_mk4 (B : Matrix (Fin 3) (Fin 3) ℝ) (t : Vec3) : block3 (mk4 B t) = B := by
  unfold block3 mk4
  ext i j
  fin_cases i <;> fin_cases j <;> simp

theorem transNeg_mul_transPos (c : Vec3) : transNeg c * transPos c = 1 := by
  unfold transNeg transPos
  ext i j
  fin_cases i <;> fin_cases j <;>
    (rw [Matrix.mul_apply, Fin.sum_univ_four]
     norm_num [Matrix.one_apply, Matrix.vecHead, Matrix.vecTail, Fin.ext_iff])

theorem rotAug_eq_pad4 (r : Fin 9 → ℝ) : rotAug r = pad4 (rot3 r) := by
  unfold rotAug pad4 mk4 rot3 vzero
  ext i j
  fin_cases i <;> fin_cases j <;> simp

set_option maxHeartbeats 1000000 in
theorem pad4_mul (A B : Matrix (Fin 3) (Fin 3) ℝ) : pad4 A * pad4 B = pad4 (A * B) := by
  unfold pad4 mk4 vzero
  ext i j
  fin_cases i <;> fin_cases j <;>
    (simp [Matrix.mul_apply, Fin.sum_univ_four, Fin.sum_univ_three,
       Matrix.vecHead, Matrix.vecTail, Matrix.vecMul, Matrix.dotProduct]
     try ring)

theorem pad4_one : pad4 1 = 1 := by
  unfold pad4 mk4 vzero
  ext i j
  fin_cases i <;> fin_cases j <;>
    (simp [Matrix.one_apply, Matrix.vecHead, Matrix.vecTail, Fin.ext_iff]
     try rw [if_neg (by decide)])

set_option maxHeartbeats 1000000 in
theorem transPos_mul_pad4 (c : Vec3) (B : Matrix (Fin 3) (Fin 3) ℝ) :
    transPos c * pad4 B = mk4 B c := by
  unfold transPos pad4 mk4 vzero
  ext i j
  fin_cases i <;> fin_cases j <;>
    (simp [Matrix.mul_apply, Fin.sum_univ_four,
       Matrix.vecHead, Matrix.vecTail, Matrix.vecMul, Matrix.dotProduct]
     try ring)

/-- The 4x4 `np.linalg.inv(extrinsic)` of line 123 in closed form: translation
    by `+center` times the block inverse of the rotation. -/
theorem extrinsic_inv {r : Fin 9 → ℝ} (c : Vec3) (hdet : (rot3 r).det ≠ 0) :
    (extrinsic r c)⁻¹ = mk4 (rot3 r)⁻¹ c := by
  apply Matrix.inv_eq_right_inv
  unfold extrinsic
  rw [← transPos_mul_pad4, rotAug_eq_pad4, mul_assoc, ← mul_assoc (transNeg c),
    transNeg_mul_transPos, one_mul, pad4_mul,
    Matrix.mul_nonsing_inv _ (isUnit_iff_ne_zero.mpr hdet), pad4_one]

set_option maxHeartbeats 1000000 in
/-- The four convention transforms of lines 124-127 on an assembled
    transform: the block turns into `D3 * P3 * B * F3` and the translation
    into `(t.y, t.x, -t.z)`. -/
theorem convention_mk4 (B : Matrix (Fin 3) (Fin 3) ℝ) (t : Vec3) :
    convention (mk4 B t) = mk4 (D3 * P3 * B * F3) ⟨t.y, t.x, -t.z⟩ := by
  unfold convention negRow2 permRows negColTop mk4 D3 P3 F3
  ext i j
  fin_cases i <;> fin_cases j <;>
    (simp [Matrix.mul_apply, Fin.sum_univ_three, Matrix.vecHead, Matrix.vecTail,
       Matrix.vecMul, Matrix.dotProduct]
     try ring)

/-- Stage 1 in closed form, for an invertible rotation block. -/
theorem poseC2w_eq {r : Fin 9 → ℝ} (c : Vec3) (hdet : (rot3 r).det ≠ 0) :
    poseC2w r c = mk4 (D3 * P3 * (rot3 r)⁻¹ * F3) ⟨c.y, c.x, -c.z⟩ := by
  unfold poseC2w
  rw [extrinsic_inv c hdet, convention_mk4]

/-! ### Missing guards: zero weight accumulator, zero mean distance -/

theorem self_weight_zero (m : Mat4) : (pairPW m m).2 = 0 := by
  unfold pairPW
  rw [cp2l_snd, cross_self, norm3_vzero]
  norm_num

theorem vcomp_vzero (i : Fin 4) : vcomp vzero i = 0 := by
  unfold vcomp vzero
  fin_cases i <;> rfl

/-- C1: on a single-frame input the only ordered pair is the self-pair, whose
    weight is exactly 0, below the 0.01 threshold, so the weight accumulator
    stays 0 — yet the script has no guard and still executes `totp /= totw`
    (NaN in numpy; division by zero yields the zero vector in this exact
    model) and completes stage 3 returning frames, instead of reporting an
    InsufficientConvergence failure and aborting. -/
theorem C1_single_frame_silent_division (m : Mat4) :
    totw [m] = 0 ∧ attnPoint [m] = vzero ∧ stage3 [m] = [m] := by
  have hwc : wContrib m m = 0 := by
    unfold wContrib
    rw [self_weight_zero m, if_neg (by norm_num : ¬(0.01 : ℝ) < 0)]
  have hpc : pContrib m m = vzero := by
    unfold pContrib
    rw [self_weight_zero m, if_neg (by norm_num : ¬(0.01 : ℝ) < 0)]
  have hw : totw [m] = 0 := by
    unfold totw
    simp [hwc]
  have hvz : vlistSum [vzero] = vzero := by
    unfold vlistSum vadd vzero
    simp
  have hp : totp [m] = vzero := by
    unfold totp
    simp only [List.map_cons, List.map_nil, hpc, hvz]
  have hat : attnPoint [m] = vzero := by
    unfold attnPoint
    rw [hp, hw]
    unfold vdiv vzero
    simp
  refine ⟨hw, hat, ?_⟩
  unfold stage3
  simp only [List.map_cons, List.map_nil, List.cons.injEq, and_true]
  ext i j
  rw [Matrix.of_apply]
  split_ifs with h
  · rw [hat, vcomp_vzero, sub_zero]
  · rfl

/-- C2: when every recentered translation column is the zero vector the mean
    camera distance `avglen` is 0, yet the script has no guard and still
    multiplies every translation by `4.0 / avglen` (infinity in numpy;
    `4 / 0 = 0` in this exact model, so stage 4 is a silent no-op) instead of
    reporting a ZeroMeanDistance failure and aborting. -/
theorem C2_zero_mean_silent_division (l : List Mat4)
    (h : ∀ m ∈ l, colv m 3 = vzero) :
    avglen l = 0 ∧ stage4 l = l := by
  have hsum : (l.map fun m => norm3 (colv m 3)).sum = 0 := by
    apply List.sum_eq_zero
    intro x hx
    rw [List.mem_map] at hx
    obtain ⟨m, hm, rfl⟩ := hx
    rw [h m hm, norm3_vzero]
  have ha : avglen l = 0 := by
    unfold avglen
    rw [hsum, zero_div]
  refine ⟨ha, ?_⟩
  unfold stage4
  conv_rhs => rw [← List.map_id l]
  apply List.map_congr_left
  intro m hm
  ext i j
  rw [Matrix.of_apply]
  split_ifs with hij
  · obtain ⟨hj, hi⟩ := hij
    have h0 : m i 3 = 0 := by
      have hc := h m hm
      unfold colv vzero at hc
      rw [Vec3.ext_iff'] at hc
      fin_cases i
      · exact hc.1
      · exact hc.2.1
      · exact hc.2.2
      · exact absurd rfl hi
    rw [hj]
    simp only [id_eq, h0, mul_zero]
  · rfl

/-- C2 witness: a single all-zero frame has zero translation columns, zero
    `avglen`, and stage 4 silently returns it unchanged. -/
theorem C2_zero_mean_silent_division_witness :
    avglen [(0 : Mat4)] = 0 ∧ stage4 [(0 : Mat4)] = [(0 : Mat4)] := by
  apply C2_zero_mean_silent_division
  intro m hm
  rw [List.mem_singleton] at hm
  subst hm
  unfold colv vzero
  simp

/-! ### The Scale Normalizer brings the mean distance to exactly 4 -/

theorem block3_stage4_mem (l : List Mat4) (m : Mat4) :
    block3 (Matrix.of fun i j =>
      if j = 3 ∧ i ≠ 3 then 4.0 / avglen l * m i j else m i j) = block3 m := by
  unfold block3
  ext i j
  fin_cases i <;> fin_cases j <;> simp

theorem colv_stage4_mem (l : List Mat4) (m : Mat4) :
    colv (Matrix.of fun i j =>
        if j = 3 ∧ i ≠ 3 then 4.0 / avglen l * m i j else m i j) 3
      = smul (4.0 / avglen l) (colv m 3) := by
  have e0 : (Matrix.of fun i j =>
      if j = 3 ∧ i ≠ 3 then 4.0 / avglen l * m i j else m i j) 0 3
      = 4.0 / avglen l * m 0 3 := by
    rw [Matrix.of_apply, if_pos]; exact ⟨rfl, by decide⟩
  have e1 : (Matrix.of fun i j =>
      if j = 3 ∧ i ≠ 3 then 4.0 / avglen l * m i j else m i j) 1 3
      = 4.0 / avglen l * m 1 3 := by
    rw [Matrix.of_apply, if_pos]; exact ⟨rfl, by decide⟩
  have e2 : (Matrix.of fun i j =>
      if j = 3 ∧ i ≠ 3 then 4.0 / avglen l * m i j else m i j) 2 3
      = 4.0 / avglen l * m 2 3 := by
    rw [Matrix.of_apply, if_pos]; exact ⟨rfl, by decide⟩
  unfold colv smul
  rw [Vec3.ext_iff']
  exact ⟨e0, e1, e2⟩

/-- C5: if the frame list is nonempty and the pre-scaling mean translation
    norm `avglen` is nonzero, then after stage 4 multiplies every translation
    column by `4.0 / avglen` the mean distance of the translation columns from
    the origin is exactly 4, and no rotation block is changed. -/
theorem C5_scale_to_four (l : List Mat4) (hn : l ≠ []) (ha : avglen l ≠ 0) :
    avglen (stage4 l) = 4 ∧ (stage4 l).map block3 = l.map block3 := by
  have hlen : 0 < (l.length : ℝ) := by
    have : 0 < l.length := List.length_pos.mpr hn
    exact_mod_cast this
  have hsnn : 0 ≤ (l.map fun m => norm3 (colv m 3)).sum :=
    List.sum_nonneg (by
      intro x hx
      rw [List.mem_map] at hx
      obtain ⟨m, -, rfl⟩ := hx
      exact norm3_nonneg _)
  have hpos : 0 < avglen l := by
    rcases lt_or_eq_of_le (div_nonneg hsnn (le_of_lt hlen)) with hlt | heq
    · exact hlt
    · exact absurd heq.symm ha
  have hne : ((l.length : ℝ)) ≠ 0 := ne_of_gt hlen
  constructor
  · have hmap : ((stage4 l).map fun m => norm3 (colv m 3))
        = l.map fun m => 4.0 / avglen l * norm3 (colv m 3) := by
      unfold stage4
      rw [List.map_map]
      apply List.map_congr_left
      intro m _
      show norm3 (colv (Matrix.of fun i j =>
          if j = 3 ∧ i ≠ 3 then 4.0 / avglen l * m i j else m i j) 3) = _
      rw [colv_stage4_mem l m, norm3_smul, abs_of_pos (by positivity)]
    have hlen4 : (stage4 l).length = l.length := by
      unfold stage4; exact List.length_map _ _
    have hS : (l.map fun m => norm3 (colv m 3)).sum = avglen l * (l.length : ℝ) := by
      unfold avglen
      field_simp
    conv_lhs => rw [avglen]
    rw [hmap, hlen4, List.sum_map_mul_left, hS]
    field_simp
    norm_num
  · unfold stage4
    rw [List.map_map]
    apply List.map_congr_left
    intro m _
    exact block3_stage4_mem l m

/-- C5 witness: a single frame with translation `(3,4,0)` has nonzero mean
    distance 5, and stage 4 brings the mean to exactly 4 while leaving the
    rotation block alone. -/
theorem C5_scale_to_four_witness :
    [mk4 1 ⟨3, 4, 0⟩] ≠ ([] : List Mat4) ∧ avglen [mk4 1 ⟨3, 4, 0⟩] ≠ 0 ∧
      avglen (stage4 [mk4 1 ⟨3, 4, 0⟩]) = 4 ∧
      (stage4 [mk4 1 ⟨3, 4, 0⟩]).map block3 = [mk4 1 ⟨3, 4, 0⟩].map block3 := by
  have h5 : norm3 ⟨3, 4, 0⟩ = 5 := by
    unfold norm3 dot
    show Real.sqrt (3 * 3 + 4 * 4 + 0 * 0) = 5
    rw [show (3 * 3 + 4 * 4 + 0 * 0 : ℝ) = 5 ^ 2 by norm_num,
      Real.sqrt_sq (by norm_num : (0 : ℝ) ≤ 5)]
  have hav : avglen [mk4 1 ⟨3, 4, 0⟩] = 5 := by
    unfold avglen
    rw [List.map_cons, List.map_nil, List.sum_cons, List.sum_nil, colv_mk4, h5]
    norm_num
  have hne : [mk4 1 ⟨3, 4, 0⟩] ≠ ([] : List Mat4) := by simp
  have hz : avglen [mk4 1 ⟨3, 4, 0⟩] ≠ 0 := by rw [hav]; norm_num
  obtain ⟨h1, h2⟩ := C5_scale_to_four [mk4 1 ⟨3, 4, 0⟩] hne hz
  exact ⟨hne, hz, h1, h2⟩

/-! ### View / pose matching: C9 -/

/-- C9: a view whose pose id has no entry in the pose table contributes no
    frame and the loop just continues (deleting it anywhere in the view list
    leaves the output unchanged), while the full output is exactly one frame
    per matching view, in the views' input order. -/
theorem C9_views_filter_map (imgpath : String) (ps : List PoseEntry) :
    (∀ (l1 l2 : List SfmView) (v : SfmView), poseLookup ps v.poseId = none →
      extractFrames imgpath ps (l1 ++ v :: l2) = extractFrames imgpath ps (l1 ++ l2))
    ∧ ∀ vs : List SfmView,
      extractFrames imgpath ps vs
        = (vs.filter fun v => (poseLookup ps v.poseId).isSome).map
            (frameOfView imgpath ps) := by
  have hmain : ∀ vs : List SfmView,
      extractFrames imgpath ps vs
        = (vs.filter fun v => (poseLookup ps v.poseId).isSome).map
            (frameOfView imgpath ps) := by
    intro vs
    induction vs with
    | nil => rfl
    | cons v t ih =>
      cases h : poseLookup ps v.poseId with
      | none =>
        rw [List.filter_cons]
        simp only [extractFrames, h, Option.isSome_none]
        rw [if_neg (by norm_num)]
        exact ih
      | some p =>
        rw [List.filter_cons]
        simp only [extractFrames, h, Option.isSome_some, if_true]
        rw [List.map_cons, ← ih]
        unfold frameOfView
        rw [h]
        rfl
  have hskip : ∀ (l1 l2 : List SfmView) (v : SfmView), poseLookup ps v.poseId = none →
      extractFrames imgpath ps (l1 ++ v :: l2) = extractFrames imgpath ps (l1 ++ l2) := by
    intro l1 l2 v hv
    induction l1 with
    | nil =>
      rw [List.nil_append, List.nil_append]
      simp only [extractFrames, hv]
    | cons a t ih =>
      rw [List.cons_append, List.cons_append]
      cases h : poseLookup ps a.poseId with
      | none => simp only [extractFrames, h]; exact ih
      | some p => simp only [extractFrames, h]; rw [ih]
  exact ⟨hskip, hmain⟩

/-- C9 witness: a view against an empty pose table is dropped silently. -/
theorem C9_views_filter_map_witness :
    extractFrames "img" [] ([] ++ ⟨"v1", "p1", "a.png"⟩ :: []) =
      extractFrames "img" [] ([] ++ []) :=
  (C9_views_filter_map "img" []).1 [] [] ⟨"v1", "p1", "a.png"⟩ rfl

/-! ### Permutation invariance of the attention accumulators -/

theorem vlistSum_x : ∀ l : List Vec3, (vlistSum l).x = (l.map Vec3.x).sum
  | [] => rfl
  | a :: t => by
    have ih := vlistSum_x t
    show (vadd a (vlistSum t)).x = ((a :: t).map Vec3.x).sum
    rw [List.map_cons, List.sum_cons, ← ih]
    rfl

theorem vlistSum_y : ∀ l : List Vec3, (vlistSum l).y = (l.map Vec3.y).sum
  | [] => rfl
  | a :: t => by
    have ih := vlistSum_y t
    show (vadd a (vlistSum t)).y = ((a :: t).map Vec3.y).sum
    rw [List.map_cons, List.sum_cons, ← ih]
    rfl

theorem vlistSum_z : ∀ l : List Vec3, (vlistSum l).z = (l.map Vec3.z).sum
  | [] => rfl
  | a :: t => by
    have ih := vlistSum_z t
    show (vadd a (vlistSum t)).z = ((a :: t).map Vec3.z).sum
    rw [List.map_cons, List.sum_cons, ← ih]
    rfl

theorem totw_perm {l l' : List Mat4} (h : l.Perm l') : totw l = totw l' := by
  unfold totw
  have hin : (fun mf => (l.map fun mg => wContrib mf mg).sum)
      = fun mf => (l'.map fun mg => wContrib mf mg).sum := by
    funext mf
    exact (h.map fun mg => wContrib mf mg).sum_eq
  rw [hin]
  exact (h.map _).sum_eq

theorem totp_perm {l l' : List Mat4} (h : l.Perm l') : totp l = totp l' := by
  unfold totp
  rw [Vec3.ext_iff']
  refine ⟨?_, ?_, ?_⟩
  · rw [vlistSum_x, vlistSum_x, List.map_map, List.map_map]
    have hin : (Vec3.x ∘ fun mf => vlistSum (l.map fun mg => pContrib mf mg))
        = Vec3.x ∘ fun mf => vlistSum (l'.map fun mg => pContrib mf mg) := by
      funext mf
      show (vlistSum (l.map fun mg => pContrib mf mg)).x
          = (vlistSum (l'.map fun mg => pContrib mf mg)).x
      rw [vlistSum_x, vlistSum_x, List.map_map, List.map_map]
      exact (h.map _).sum_eq
    rw [hin]
    exact (h.map _).sum_eq
  · rw [vlistSum_y, vlistSum_y, List.map_map, List.map_map]
    have hin : (Vec3.y ∘ fun mf => vlistSum (l.map fun mg => pContrib mf mg))
        = Vec3.y ∘ fun mf => vlistSum (l'.map fun mg => pContrib mf mg) := by
      funext mf
      show (vlistSum (l.map fun mg => pContrib mf mg)).y
          = (vlistSum (l'.map fun mg => pContrib mf mg)).y
      rw [vlistSum_y, vlistSum_y, List.map_map, List.map_map]
      exact (h.map _).sum_eq
    rw [hin]
    exact (h.map _).sum_eq
  · rw [vlistSum_z, vlistSum_z, List.map_map, List.map_map]
    have hin : (Vec3.z ∘ fun mf => vlistSum (l.map fun mg => pContrib mf mg))
        = Vec3.z ∘ fun mf => vlistSum (l'.map fun mg => pContrib mf mg) := by
      funext mf
      show (vlistSum (l.map fun mg => pContrib mf mg)).z
          = (vlistSum (l'.map fun mg => pContrib mf mg)).z
      rw [vlistSum_z, vlistSum_z, List.map_map, List.map_map]
      exact (h.map _).sum_eq
    rw [hin]
    exact (h.map _).sum_eq

/-- C8: the Attention-Center Estimator is invariant under any permutation of
    the frame list: the accumulated weight sum, the accumulated weighted-point
    sum, and hence the attention point itself are unchanged. -/
theorem C8_attention_perm_invariant (l l' : List Mat4) (h : l.Perm l') :
    totw l = totw l' ∧ totp l = totp l' ∧ attnPoint l = attnPoint l' :=
  ⟨totw_perm h, totp_perm h, by unfold attnPoint; rw [totp_perm h, totw_perm h]⟩

/-- C8 witness: swapping a concrete two-frame list leaves the accumulators
    and the attention point unchanged. -/
theorem C8_attention_perm_invariant_witness :
    totw [(0 : Mat4), 1] = totw [1, 0] ∧ totp [(0 : Mat4), 1] = totp [1, 0] ∧
      attnPoint [(0 : Mat4), 1] = attnPoint [1, 0] :=
  C8_attention_perm_invariant _ _ (List.Perm.swap 1 0 [])

/-- C10 witness: concrete rays along the x and y axes satisfy the hypotheses,
    and the theorem yields the weight bounds there. -/
theorem C10_weight_of_pair_witness :
    (⟨1, 0, 0⟩ : Vec3) ≠ vzero ∧ (⟨0, 1, 0⟩ : Vec3) ≠ vzero ∧
      0 ≤ (closest_point_2_lines vzero ⟨1, 0, 0⟩ vzero ⟨0, 1, 0⟩).2 ∧
      (closest_point_2_lines vzero ⟨1, 0, 0⟩ vzero ⟨0, 1, 0⟩).2 ≤ 1 := by
  have h1 : (⟨1, 0, 0⟩ : Vec3) ≠ vzero := by
    intro e; rw [Vec3.ext_iff'] at e; unfold vzero at e; norm_num at e
  have h2 : (⟨0, 1, 0⟩ : Vec3) ≠ vzero := by
    intro e; rw [Vec3.ext_iff'] at e; unfold vzero at e; norm_num at e
  obtain ⟨-, hw0, hw1, -⟩ := C10_weight_of_pair vzero ⟨1, 0, 0⟩ vzero ⟨0, 1, 0⟩ h1 h2
  exact ⟨h1, h2, hw0, hw1⟩

/-! ### The Up-Vector Estimator's guarded Rodrigues rotation -/

theorem vdiv_one (a : Vec3) : vdiv a 1 = a := by
  unfold vdiv
  rw [Vec3.ext_iff']
  norm_num

theorem norm3_of_dot_one {u : Vec3} (h : dot u u = 1) : norm3 u = 1 := by
  unfold norm3
  rw [h]
  exact Real.sqrt_one

theorem norm3_e3 : norm3 ⟨0, 0, 1⟩ = 1 := by
  unfold norm3 dot
  show Real.sqrt (0 * 0 + 0 * 0 + 1 * 1) = 1
  rw [show (0 * 0 + 0 * 0 + 1 * 1 : ℝ) = 1 by norm_num]
  exact Real.sqrt_one

theorem rotmat_unit {u : Vec3} (hu : dot u u = 1) :
    rotmat u ⟨0, 0, 1⟩ = rodriguesSpecC7 u := by
  unfold rotmat rodriguesSpecC7
  rw [norm3_of_dot_one hu, norm3_e3, vdiv_one, vdiv_one]

theorem cross_e3_sq (u : Vec3) :
    norm3 (cross u ⟨0, 0, 1⟩) ^ 2 = u.x ^ 2 + u.y ^ 2 := by
  rw [norm3_sq]
  unfold cross dot
  dsimp only
  ring

set_option maxHeartbeats 1000000 in
/-- Applying the guarded up-alignment rotation to the unit vector `u` it was
    built from lands exactly on `(0,0,1) + deltaC7 u * u`. -/
theorem rotmat_apply_up {u : Vec3} (hu : dot u u = 1) :
    matVec (rotmat u ⟨0, 0, 1⟩) u = vadd ⟨0, 0, 1⟩ (smul (deltaC7 u) u) := by
  have hpos : (0 : ℝ) < (u.x ^ 2 + u.y ^ 2) + 1e-10 := by positivity
  have hne : (u.x ^ 2 + u.y ^ 2) + 1e-10 ≠ 0 := ne_of_gt hpos
  have hu' : u.x * u.x + u.y * u.y + u.z * u.z = 1 := hu
  rw [rotmat_unit hu]
  simp only [rodriguesSpecC7]
  rw [cross_e3_sq]
  unfold matVec vadd smul deltaC7 cross dot
  rw [Vec3.ext_iff']
  dsimp only
  refine ⟨?_, ?_, ?_⟩
  · simp [Matrix.add_apply, Matrix.smul_apply, Matrix.mul_apply,
      Matrix.one_apply, Fin.sum_univ_three, Matrix.vecHead, Matrix.vecTail,
      smul_eq_mul]
    field_simp
    ring
  · simp [Matrix.add_apply, Matrix.smul_apply, Matrix.mul_apply,
      Matrix.one_apply, Fin.sum_univ_three, Matrix.vecHead, Matrix.vecTail,
      smul_eq_mul]
    field_simp
    ring
  · simp [Matrix.add_apply, Matrix.smul_apply, Matrix.mul_apply,
      Matrix.one_apply, Fin.sum_univ_three, Matrix.vecHead, Matrix.vecTail,
      smul_eq_mul]
    field_simp
    linear_combination (u.x ^ 2 + u.y ^ 2 + 1e-10) * hu'

/-! ### The pose-extraction algorithm as matrix products (C3) -/

set_option maxHeartbeats 1000000 in
/-- The three convention steps of the claim, written as matrix products,
    agree with the entrywise mutations of the script on any transform with
    last row `(0,0,0,1)`. -/
theorem conv_as_products (B : Matrix (Fin 3) (Fin 3) ℝ) (t : Vec3) :
    negRow2Mat * (permMat * (mk4 B t * colFlipMat))
      = mk4 (D3 * P3 * B * F3) ⟨t.y, t.x, -t.z⟩ := by
  unfold negRow2Mat permMat colFlipMat mk4 D3 P3 F3
  ext i j
  fin_cases i <;> fin_cases j <;>
    (simp [Matrix.mul_apply, Fin.sum_univ_four, Fin.sum_univ_three,
       Matrix.vecHead, Matrix.vecTail, Matrix.vecMul, Matrix.dotProduct]
     try ring)

/-- C3 (amended): the Pose Extractor equals the claim's algorithm once
    `R_aug` is read as placing the consecutive scalar triples of the
    column-major rotation into its first three COLUMNS (no transpose): build
    `R_aug * T(-center)`, invert, then apply steps (a) negate the 3rd and 2nd
    columns of the rotation part (right factor `diag(1,-1,-1,1)`), (b) permute
    rows (1,0,2,3), (c) negate row 2, in that order. -/
theorem C3_pose_extraction_amended (r : Fin 9 → ℝ) (c : Vec3)
    (hdet : (rot3 r).det ≠ 0) :
    poseC2w r c = negRow2Mat * (permMat * ((extrinsic r c)⁻¹ * colFlipMat)) := by
  unfold poseC2w
  rw [extrinsic_inv c hdet, convention_mk4, conv_as_products]

/-- C3 witness: the identity rotation with center `(1,2,3)` satisfies the
    determinant hypothesis, and the two formulations agree there. -/
theorem C3_pose_extraction_amended_witness :
    (rot3 ![1, 0, 0, 0, 1, 0, 0, 0, 1]).det ≠ 0 ∧
      poseC2w ![1, 0, 0, 0, 1, 0, 0, 0, 1] ⟨1, 2, 3⟩
        = negRow2Mat * (permMat *
            ((extrinsic ![1, 0, 0, 0, 1, 0, 0, 0, 1] ⟨1, 2, 3⟩)⁻¹ * colFlipMat)) := by
  have hdet : (rot3 ![1, 0, 0, 0, 1, 0, 0, 0, 1] : Matrix (Fin 3) (Fin 3) ℝ).det ≠ 0 := by
    have hr : rot3 ![1, 0, 0, 0, 1, 0, 0, 0, 1] = !![(1 : ℝ), 0, 0; 0, 1, 0; 0, 0, 1] := by
      unfold rot3
      ext i j
      fin_cases i <;> fin_cases j <;> rfl
    rw [hr, Matrix.det_fin_three]
    norm_num
  exact ⟨hdet, C3_pose_extraction_amended _ _ hdet⟩

theorem transNeg_vzero : transNeg vzero = 1 := by
  unfold transNeg vzero
  ext i j
  fin_cases i <;> fin_cases j <;>
    norm_num [Matrix.one_apply, Matrix.vecHead, Matrix.vecTail, Fin.ext_iff]

set_option maxHeartbeats 1000000 in
theorem rotAug_perm_inv :
    (rotAug ![0, 0, 1, 1, 0, 0, 0, 1, 0])⁻¹
      = !![(0 : ℝ), 0, 1, 0; 1, 0, 0, 0; 0, 1, 0, 0; 0, 0, 0, 1] := by
  apply Matrix.inv_eq_right_inv
  have hb : rotAug ![0, 0, 1, 1, 0, 0, 0, 1, 0]
      = !![(0 : ℝ), 1, 0, 0; 0, 0, 1, 0; 1, 0, 0, 0; 0, 0, 0, 1] := by
    unfold rotAug
    ext i j
    fin_cases i <;> fin_cases j <;> rfl
  rw [hb]
  ext i j
  fin_cases i <;> fin_cases j <;>
    (rw [Matrix.mul_apply, Fin.sum_univ_four]
     norm_num [Matrix.one_apply, Matrix.vecHead, Matrix.vecTail, Fin.ext_iff])

set_option maxHeartbeats 1000000 in
theorem rotAugSpecC3_perm_inv :
    (rotAugSpecC3 ![0, 0, 1, 1, 0, 0, 0, 1, 0])⁻¹
      = !![(0 : ℝ), 1, 0, 0; 0, 0, 1, 0; 1, 0, 0, 0; 0, 0, 0, 1] := by
  apply Matrix.inv_eq_right_inv
  have hb : rotAugSpecC3 ![0, 0, 1, 1, 0, 0, 0, 1, 0]
      = !![(0 : ℝ), 0, 1, 0; 1, 0, 0, 0; 0, 1, 0, 0; 0, 0, 0, 1] := by
    unfold rotAugSpecC3
    ext i j
    fin_cases i <;> fin_cases j <;> rfl
  rw [hb]
  ext i j
  fin_cases i <;> fin_cases j <;>
    (rw [Matrix.mul_apply, Fin.sum_univ_four]
     norm_num [Matrix.one_apply, Matrix.vecHead, Matrix.vecTail, Fin.ext_iff])

/-- C3 counterexample: on the column-major rotation `(0,0,1, 1,0,0, 0,1,0)`
    with center 0, the script's pose extractor and the claim's
    transposed-`R_aug` algorithm produce different matrices (entry (0,0) is 1
    for the script, 0 for the claim's construction). -/
theorem C3_transpose_cex :
    poseC2w ![0, 0, 1, 1, 0, 0, 0, 1, 0] vzero 0 0 = 1
    ∧ poseC2wSpecC3 ![0, 0, 1, 1, 0, 0, 0, 1, 0] vzero 0 0 = 0
    ∧ poseC2w ![0, 0, 1, 1, 0, 0, 0, 1, 0] vzero
        ≠ poseC2wSpecC3 ![0, 0, 1, 1, 0, 0, 0, 1, 0] vzero := by
  have hcode : poseC2w ![0, 0, 1, 1, 0, 0, 0, 1, 0] vzero 0 0 = 1 := by
    unfold poseC2w extrinsic
    rw [transNeg_vzero, mul_one, rotAug_perm_inv]
    unfold convention negRow2 permRows negColTop
    norm_num [Matrix.vecHead, Matrix.vecTail, Fin.ext_iff]
  have hspec : poseC2wSpecC3 ![0, 0, 1, 1, 0, 0, 0, 1, 0] vzero 0 0 = 0 := by
    unfold poseC2wSpecC3
    rw [transNeg_vzero, mul_one, rotAugSpecC3_perm_inv]
    unfold convention negRow2 permRows negColTop
    norm_num [Matrix.vecHead, Matrix.vecTail, Fin.ext_iff]
  refine ⟨hcode, hspec, ?_⟩
  intro h
  have h00 := congrArg (fun M : Mat4 => M 0 0) h
  dsimp only at h00
  rw [hcode, hspec] at h00
  norm_num at h00

/-! ### Scale invariance of the whole pipeline (C4) -/

theorem tscale_mk4 (k : ℝ) (B : Matrix (Fin 3) (Fin 3) ℝ) (t : Vec3) :
    tscale k (mk4 B t) = mk4 B (smul k t) := by
  unfold tscale mk4 smul
  ext i j
  fin_cases i <;> fin_cases j <;> simp

theorem poseC2w_scale {r : Fin 9 → ℝ} (c : Vec3) (k : ℝ)
    (hdet : (rot3 r).det ≠ 0) :
    poseC2w r (smul k c) = tscale k (poseC2w r c) := by
  have harg : (⟨(smul k c).y, (smul k c).x, -(smul k c).z⟩ : Vec3)
      = smul k ⟨c.y, c.x, -c.z⟩ := by
    unfold smul
    rw [Vec3.ext_iff']
    dsimp only
    refine ⟨rfl, rfl, by ring⟩
  rw [poseC2w_eq (smul k c) hdet, poseC2w_eq c hdet, tscale_mk4, ← harg]

theorem stage1_scale (ps : List SfmPose) (k : ℝ)
    (hdet : ∀ p ∈ ps, (rot3 p.rot).det ≠ 0) :
    stage1 (ps.map (scalePose k)) = (stage1 ps).map (tscale k) := by
  unfold stage1
  rw [List.map_map, List.map_map]
  apply List.map_congr_left
  intro p hp
  show poseC2w p.rot (smul k p.center) = tscale k (poseC2w p.rot p.center)
  exact poseC2w_scale p.center k (hdet p hp)

theorem colv_tscale_of_ne (k : ℝ) (m : Mat4) (j : Fin 4) (hj : j ≠ 3) :
    colv (tscale k m) j = colv m j := by
  have e : ∀ i : Fin 4, tscale k m i j = m i j := by
    intro i
    unfold tscale
    rw [Matrix.of_apply, if_neg (fun hc => hj hc.1)]
  unfold colv
  rw [Vec3.ext_iff']
  exact ⟨e 0, e 1, e 2⟩

theorem colv_tscale_three (k : ℝ) (m : Mat4) :
    colv (tscale k m) 3 = smul k (colv m 3) := by
  have e0 : tscale k m 0 3 = k * m 0 3 := by
    unfold tscale; rw [Matrix.of_apply, if_pos]; exact ⟨rfl, by decide⟩
  have e1 : tscale k m 1 3 = k * m 1 3 := by
    unfold tscale; rw [Matrix.of_apply, if_pos]; exact ⟨rfl, by decide⟩
  have e2 : tscale k m 2 3 = k * m 2 3 := by
    unfold tscale; rw [Matrix.of_apply, if_pos]; exact ⟨rfl, by decide⟩
  unfold colv smul
  rw [Vec3.ext_iff']
  exact ⟨e0, e1, e2⟩

theorem upSum_tscale (k : ℝ) (l : List Mat4) :
    upSum (l.map (tscale k)) = upSum l := by
  unfold upSum
  rw [List.foldl_map]
  have hfun : (fun (u : Vec3) (m : Mat4) => vadd u (colv (tscale k m) 1))
      = fun u m => vadd u (colv m 1) := by
    funext u m
    rw [colv_tscale_of_ne k m 1 (by decide)]
  rw [hfun]

set_option maxHeartbeats 1000000 in
theorem pad4_mul_tscale (R : Matrix (Fin 3) (Fin 3) ℝ) (k : ℝ) (m : Mat4) :
    pad4 R * tscale k m = tscale k (pad4 R * m) := by
  unfold pad4 mk4 vzero tscale
  ext i j
  fin_cases i <;> fin_cases j <;>
    (simp [Matrix.mul_apply, Fin.sum_univ_four, Matrix.vecHead, Matrix.vecTail]
     try ring)

theorem stage2_tscale (k : ℝ) (l : List Mat4) :
    stage2 (l.map (tscale k)) = (stage2 l).map (tscale k) := by
  unfold stage2
  rw [List.map_map, List.map_map]
  have hup : upR (l.map (tscale k)) = upR l := by
    unfold upR upNormed
    rw [upSum_tscale]
  apply List.map_congr_left
  intro m _
  show pad4 (upR (l.map (tscale k))) * tscale k m = tscale k (pad4 (upR l) * m)
  rw [hup, pad4_mul_tscale]

theorem cp2l_scale (k : ℝ) (hk : 0 < k) (oa da ob db : Vec3) :
    closest_point_2_lines (smul k oa) da (smul k ob) db
      = (smul k (closest_point_2_lines oa da ob db).1,
         (closest_point_2_lines oa da ob db).2) := by
  simp only [closest_point_2_lines]
  have ht : vsub (smul k ob) (smul k oa) = smul k (vsub ob oa) := by
    unfold vsub smul; rw [Vec3.ext_iff']; refine ⟨by ring, by ring, by ring⟩
  rw [ht]
  have hdet : ∀ v w : Vec3, det3 (smul k (vsub ob oa)) v w
      = k * det3 (vsub ob oa) v w := by
    intro v w; unfold det3 dot cross smul; dsimp only; ring
  rw [hdet, hdet, mul_div_assoc, mul_div_assoc]
  have hclamp : ∀ a : ℝ, (if 0 < k * a then (0 : ℝ) else k * a)
      = k * (if 0 < a then 0 else a) := by
    intro a
    by_cases h : 0 < a
    · rw [if_pos h, if_pos (mul_pos hk h), mul_zero]
    · rw [if_neg h, if_neg]
      intro hc
      apply h
      by_contra hna
      push_neg at hna
      nlinarith [mul_nonpos_of_nonneg_of_nonpos (le_of_lt hk) hna]
  rw [hclamp, hclamp]
  have hfst : ∀ ta tb : ℝ,
      smul 0.5 (vadd (vadd (smul k oa) (smul (k * ta) (vdiv da (norm3 da))))
        (vadd (smul k ob) (smul (k * tb) (vdiv db (norm3 db)))))
      = smul k (smul 0.5 (vadd (vadd oa (smul ta (vdiv da (norm3 da))))
          (vadd ob (smul tb (vdiv db (norm3 db)))))) := by
    intro ta tb
    unfold smul vadd vdiv
    rw [Vec3.ext_iff']
    refine ⟨by ring, by ring, by ring⟩
  rw [hfst]

theorem pairPW_tscale (k : ℝ) (hk : 0 < k) (mf mg : Mat4) :
    pairPW (tscale k mf) (tscale k mg)
      = (smul k (pairPW mf mg).1, (pairPW mf mg).2) := by
  unfold pairPW
  rw [colv_tscale_three, colv_tscale_three, colv_tscale_of_ne k mf 2 (by decide),
    colv_tscale_of_ne k mg 2 (by decide), cp2l_scale k hk]

theorem wContrib_tscale (k : ℝ) (hk : 0 < k) (mf mg : Mat4) :
    wContrib (tscale k mf) (tscale k mg) = wContrib mf mg := by
  unfold wContrib
  rw [pairPW_tscale k hk]

theorem pContrib_tscale (k : ℝ) (hk : 0 < k) (mf mg : Mat4) :
    pContrib (tscale k mf) (tscale k mg) = smul k (pContrib mf mg) := by
  unfold pContrib
  rw [pairPW_tscale k hk]
  dsimp only
  split_ifs with h
  · unfold smul; rw [Vec3.ext_iff']; refine ⟨by ring, by ring, by ring⟩
  · unfold smul vzero; rw [Vec3.ext_iff']; norm_num

theorem totw_tscale (k : ℝ) (hk : 0 < k) (l : List Mat4) :
    totw (l.map (tscale k)) = totw l := by
  unfold totw
  rw [List.map_map]
  apply congrArg List.sum
  apply List.map_congr_left
  intro mf _
  show ((l.map (tscale k)).map fun mg => wContrib (tscale k mf) mg).sum
      = (l.map fun mg => wContrib mf mg).sum
  rw [List.map_map]
  apply congrArg List.sum
  apply List.map_congr_left
  intro mg _
  exact wContrib_tscale k hk mf mg

theorem vlistSum_map_smul (k : ℝ) (l : List Vec3) :
    vlistSum (l.map (smul k)) = smul k (vlistSum l) := by
  induction l with
  | nil =>
    show vzero = smul k vzero
    unfold smul vzero
    rw [Vec3.ext_iff']
    norm_num
  | cons a t ih =>
    show vadd (smul k a) (vlistSum (t.map (smul k))) = smul k (vadd a (vlistSum t))
    rw [ih]
    unfold vadd smul
    rw [Vec3.ext_iff']
    refine ⟨by ring, by ring, by ring⟩

theorem totp_tscale (k : ℝ) (hk : 0 < k) (l : List Mat4) :
    totp (l.map (tscale k)) = smul k (totp l) := by
  unfold totp
  rw [List.map_map]
  have hout : (l.map fun mf => vlistSum ((l.map (tscale k)).map
        fun mg => pContrib (tscale k mf) mg))
      = (l.map fun mf => vlistSum (l.map fun mg => pContrib mf mg)).map (smul k) := by
    rw [List.map_map]
    apply List.map_congr_left
    intro mf _
    show vlistSum ((l.map (tscale k)).map fun mg => pContrib (tscale k mf) mg)
        = smul k (vlistSum (l.map fun mg => pContrib mf mg))
    rw [List.map_map]
    have hin : (l.map fun mg => pContrib (tscale k mf) (tscale k mg))
        = (l.map fun mg => pContrib mf mg).map (smul k) := by
      rw [List.map_map]
      apply List.map_congr_left
      intro mg _
      exact pContrib_tscale k hk mf mg
    show vlistSum (l.map fun mg => pContrib (tscale k mf) (tscale k mg)) = _
    rw [hin, vlistSum_map_smul]
  show vlistSum (l.map fun mf => vlistSum ((l.map (tscale k)).map
      fun mg => pContrib (tscale k mf) mg)) = _
  rw [hout, vlistSum_map_smul]

theorem attnPoint_tscale (k : ℝ) (hk : 0 < k) (l : List Mat4) :
    attnPoint (l.map (tscale k)) = smul k (attnPoint l) := by
  unfold attnPoint
  rw [totp_tscale k hk, totw_tscale k hk]
  unfold vdiv smul
  rw [Vec3.ext_iff']
  dsimp only
  refine ⟨by ring, by ring, by ring⟩

theorem vcomp_smul (k : ℝ) (v : Vec3) (i : Fin 4) :
    vcomp (smul k v) i = k * vcomp v i := by
  unfold vcomp smul
  fin_cases i <;> simp

set_option maxHeartbeats 1000000 in
theorem stage3_tscale (k : ℝ) (hk : 0 < k) (l : List Mat4) :
    stage3 (l.map (tscale k)) = (stage3 l).map (tscale k) := by
  unfold stage3
  rw [List.map_map, List.map_map]
  apply List.map_congr_left
  intro m _
  show (Matrix.of fun i j => if j = 3 ∧ i ≠ 3
        then tscale k m i j - vcomp (attnPoint (l.map (tscale k))) i
        else tscale k m i j)
      = tscale k (Matrix.of fun i j => if j = 3 ∧ i ≠ 3
        then m i j - vcomp (attnPoint l) i else m i j)
  rw [attnPoint_tscale k hk]
  ext i j
  unfold tscale
  fin_cases i <;> fin_cases j <;>
    (simp [vcomp_smul]
     try ring)

theorem avglen_tscale (k : ℝ) (hk : 0 < k) (l : List Mat4) :
    avglen (l.map (tscale k)) = k * avglen l := by
  unfold avglen
  rw [List.map_map, List.length_map]
  have hmap : (l.map fun m => norm3 (colv (tscale k m) 3))
      = l.map fun m => k * norm3 (colv m 3) := by
    apply List.map_congr_left
    intro m _
    rw [colv_tscale_three, norm3_smul, abs_of_pos hk]
  show (l.map fun m => norm3 (colv (tscale k m) 3)).sum / ↑l.length = _
  rw [hmap, List.sum_map_mul_left]
  ring

theorem div_scale_cancel (k a x : ℝ) (hk : k ≠ 0) :
    4.0 / (k * a) * (k * x) = 4.0 / a * x := by
  rcases eq_or_ne a 0 with rfl | ha
  · simp
  · field_simp
    ring

set_option maxHeartbeats 1000000 in
theorem stage4_tscale (k : ℝ) (hk : 0 < k) (l : List Mat4) :
    stage4 (l.map (tscale k)) = stage4 l := by
  unfold stage4
  rw [List.map_map]
  apply List.map_congr_left
  intro m _
  show (Matrix.of fun i j => if j = 3 ∧ i ≠ 3
        then 4.0 / avglen (l.map (tscale k)) * tscale k m i j
        else tscale k m i j)
      = Matrix.of fun i j => if j = 3 ∧ i ≠ 3 then 4.0 / avglen l * m i j else m i j
  rw [avglen_tscale k hk]
  ext i j
  unfold tscale
  fin_cases i <;> fin_cases j <;>
    (simp
     try exact div_scale_cancel k (avglen l) _ (ne_of_gt hk))

/-- C4: multiplying every input camera center by a constant `k > 0` before
    running the pipeline yields an identical normalized output: the rotation
    blocks and ray-pair weights are unchanged, the attention point and all
    translations scale by `k`, and the final `4.0 / avglen` normalization
    divides by `k`, cancelling it exactly. -/
theorem C4_scale_invariance (ps : List SfmPose) (k : ℝ) (hk : 0 < k)
    (hdet : ∀ p ∈ ps, (rot3 p.rot).det ≠ 0) :
    pipeline (ps.map (scalePose k)) = pipeline ps := by
  unfold pipeline
  rw [stage1_scale ps k hdet, stage2_tscale, stage3_tscale k hk, stage4_tscale k hk]

/-- C4 witness: one identity-rotation camera at center `(1,2,3)`, scaled by
    `k = 2`, gives the same pipeline output. -/
theorem C4_scale_invariance_witness :
    (0 : ℝ) < 2 ∧
      (∀ p ∈ [(⟨![1, 0, 0, 0, 1, 0, 0, 0, 1], ⟨1, 2, 3⟩⟩ : SfmPose)],
        (rot3 p.rot).det ≠ 0) ∧
      pipeline ([(⟨![1, 0, 0, 0, 1, 0, 0, 0, 1], ⟨1, 2, 3⟩⟩ : SfmPose)].map (scalePose 2))
        = pipeline [(⟨![1, 0, 0, 0, 1, 0, 0, 0, 1], ⟨1, 2, 3⟩⟩ : SfmPose)] := by
  have hdet : ∀ p ∈ [(⟨![1, 0, 0, 0, 1, 0, 0, 0, 1], ⟨1, 2, 3⟩⟩ : SfmPose)],
      (rot3 p.rot).det ≠ 0 := by
    intro p hp
    rw [List.mem_singleton] at hp
    subst hp
    show (rot3 ![1, 0, 0, 0, 1, 0, 0, 0, 1]).det ≠ 0
    have hr : rot3 ![1, 0, 0, 0, 1, 0, 0, 0, 1] = !![(1 : ℝ), 0, 0; 0, 1, 0; 0, 0, 1] := by
      unfold rot3
      ext i j
      fin_cases i <;> fin_cases j <;> rfl
    rw [hr, Matrix.det_fin_three]
    norm_num
  exact ⟨by norm_num, hdet, C4_scale_invariance _ 2 (by norm_num) hdet⟩

theorem norm3_e3neg : norm3 ⟨0, 0, -1⟩ = 1 := by
  unfold norm3 dot
  show Real.sqrt (0 * 0 + 0 * 0 + -1 * -1) = 1
  rw [show (0 * 0 + 0 * 0 + -1 * -1 : ℝ) = 1 by norm_num]
  exact Real.sqrt_one

theorem rotmat_id : rotmat ⟨0, 0, 1⟩ ⟨0, 0, 1⟩ = (1 : Matrix (Fin 3) (Fin 3) ℝ) := by
  simp only [rotmat]
  rw [norm3_e3, vdiv_one]
  ext i j
  fin_cases i <;> fin_cases j <;>
    simp [cross, dot, Matrix.add_apply, Matrix.smul_apply, Matrix.mul_apply,
      Matrix.one_apply, Fin.sum_univ_three, Matrix.vecHead, Matrix.vecTail]

theorem rotmat_antiparallel : rotmat ⟨0, 0, -1⟩ ⟨0, 0, 1⟩ = (1 : Matrix (Fin 3) (Fin 3) ℝ) := by
  simp only [rotmat]
  rw [norm3_e3, norm3_e3neg, vdiv_one, vdiv_one]
  ext i j
  fin_cases i <;> fin_cases j <;>
    simp [cross, dot, Matrix.add_apply, Matrix.smul_apply, Matrix.mul_apply,
      Matrix.one_apply, Fin.sum_univ_three, Matrix.vecHead, Matrix.vecTail]

theorem deltaC7_bounds {u : Vec3} (hu : dot u u = 1) (hz : -(1 / 2 : ℝ) ≤ u.z) :
    0 ≤ deltaC7 u ∧ deltaC7 u ≤ 1e-5 := by
  have hu' : u.x * u.x + u.y * u.y + u.z * u.z = 1 := hu
  have hz1 : u.z ≤ 1 := by
    nlinarith [mul_self_nonneg u.x, mul_self_nonneg u.y, sq_nonneg (u.z - 1)]
  have hpos : (0 : ℝ) < (u.x ^ 2 + u.y ^ 2) + 1e-10 := by positivity
  constructor
  · unfold deltaC7
    apply div_nonneg _ (le_of_lt hpos)
    nlinarith [hz1]
  · unfold deltaC7
    rw [div_le_iff₀ hpos]
    have hs2 : u.x ^ 2 + u.y ^ 2 = 1 - u.z ^ 2 := by nlinarith [hu']
    rw [hs2]
    have key : 0 ≤ (1 - u.z) * (1e-5 * (1 + u.z) - 1e-10) :=
      mul_nonneg (by linarith) (by linarith)
    nlinarith [key]

/-- C7 (amended): for a unit estimated up vector `u`, the Up-Vector
    Estimator's rotation equals the Rodrigues construction
    `I + K + K^2 (1-cos)/(sin^2 + 1e-10)` built from the unnormalized cross
    product of `u` and `(0,0,1)`; PROVIDED `u` is not close to anti-parallel
    (`u.z >= -1/2`), applying the rotation to `u` yields `(0,0,1)` within
    `1e-5`; and at `u = (0,0,1)` the rotation is exactly the identity.  (The
    proximity conjunct fails without the added proviso: see the antiparallel
    counterexample.) -/
theorem C7_up_rotation_amended (u : Vec3) (hu : dot u u = 1) :
    rotmat u ⟨0, 0, 1⟩ = rodriguesSpecC7 u
    ∧ (-(1 / 2 : ℝ) ≤ u.z →
        norm3 (vsub (matVec (rotmat u ⟨0, 0, 1⟩) u) ⟨0, 0, 1⟩) ≤ 1e-5)
    ∧ rotmat ⟨0, 0, 1⟩ ⟨0, 0, 1⟩ = 1 := by
  refine ⟨rotmat_unit hu, ?_, rotmat_id⟩
  intro hz
  rw [rotmat_apply_up hu]
  have hsub : vsub (vadd ⟨0, 0, 1⟩ (smul (deltaC7 u) u)) ⟨0, 0, 1⟩
      = smul (deltaC7 u) u := by
    unfold vsub vadd smul
    rw [Vec3.ext_iff']
    refine ⟨by ring, by ring, by ring⟩
  rw [hsub, norm3_smul, norm3_of_dot_one hu, mul_one]
  obtain ⟨h0, h1⟩ := deltaC7_bounds hu hz
  rw [abs_of_nonneg h0]
  exact h1

/-- C7 witness: at the already-canonical up vector `(0,0,1)` the hypotheses
    hold and the rotation maps it to `(0,0,1)` within tolerance. -/
theorem C7_up_rotation_amended_witness :
    dot ⟨0, 0, 1⟩ ⟨0, 0, 1⟩ = (1 : ℝ) ∧
      norm3 (vsub (matVec (rotmat ⟨0, 0, 1⟩ ⟨0, 0, 1⟩) ⟨0, 0, 1⟩) ⟨0, 0, 1⟩) ≤ 1e-5 := by
  have hu : dot (⟨0, 0, 1⟩ : Vec3) ⟨0, 0, 1⟩ = 1 := by unfold dot; norm_num
  exact ⟨hu, (C7_up_rotation_amended ⟨0, 0, 1⟩ hu).2.1 (by norm_num)⟩

/-- C7 counterexample: the estimated up vector `(0,0,-1)` (all cameras
    upside down) is unit, the guarded Rodrigues construction degenerates to
    the identity there, and applying it to `u` leaves `(0,0,-1)`, at distance
    2 from `(0,0,1)` — not within 1e-5 as the claim asserts for every
    nonzero up vector. -/
theorem C7_antiparallel_cex :
    dot ⟨0, 0, -1⟩ ⟨0, 0, -1⟩ = (1 : ℝ)
    ∧ rotmat ⟨0, 0, -1⟩ ⟨0, 0, 1⟩ = 1
    ∧ norm3 (vsub (matVec (rotmat ⟨0, 0, -1⟩ ⟨0, 0, 1⟩) ⟨0, 0, -1⟩) ⟨0, 0, 1⟩) = 2
    ∧ ¬ norm3 (vsub (matVec (rotmat ⟨0, 0, -1⟩ ⟨0, 0, 1⟩) ⟨0, 0, -1⟩) ⟨0, 0, 1⟩) ≤ 1e-5 := by
  have hu : dot (⟨0, 0, -1⟩ : Vec3) ⟨0, 0, -1⟩ = 1 := by unfold dot; norm_num
  have hmv : matVec (1 : Matrix (Fin 3) (Fin 3) ℝ) ⟨0, 0, -1⟩ = ⟨0, 0, -1⟩ := by
    unfold matVec
    rw [Vec3.ext_iff']
    refine ⟨?_, ?_, ?_⟩ <;> simp [Matrix.one_apply]
  have hvs : vsub (⟨0, 0, -1⟩ : Vec3) ⟨0, 0, 1⟩ = ⟨0, 0, -2⟩ := by
    unfold vsub
    rw [Vec3.ext_iff']
    norm_num
  have hn2 : norm3 ⟨0, 0, -2⟩ = 2 := by
    unfold norm3 dot
    show Real.sqrt (0 * 0 + 0 * 0 + -2 * -2) = 2
    rw [show (0 * 0 + 0 * 0 + -2 * -2 : ℝ) = 2 ^ 2 by norm_num,
      Real.sqrt_sq (by norm_num : (0 : ℝ) ≤ 2)]
  have hfull : norm3 (vsub (matVec (rotmat ⟨0, 0, -1⟩ ⟨0, 0, 1⟩) ⟨0, 0, -1⟩) ⟨0, 0, 1⟩) = 2 := by
    rw [rotmat_antiparallel, hmv, hvs, hn2]
  refine ⟨hu, rotmat_antiparallel, hfull, ?_⟩
  rw [hfull]
  norm_num

/-! ### Orthonormality of the rotation blocks through the stages (C6) -/

set_option maxHeartbeats 1000000 in
/-- The guarded up rotation for a unit `u`, entry by entry. -/
theorem rotmat_unit_entries {u : Vec3} (hu : dot u u = 1) :
    rotmat u ⟨0, 0, 1⟩ =
      !![1 - kUp u * u.x ^ 2, -(kUp u * u.x * u.y), -u.x;
         -(kUp u * u.x * u.y), 1 - kUp u * u.y ^ 2, -u.y;
         u.x, u.y, 1 - kUp u * (u.x ^ 2 + u.y ^ 2)] := by
  rw [rotmat_unit hu]
  simp only [rodriguesSpecC7]
  rw [cross_e3_sq]
  unfold kUp cross dot
  ext i j
  fin_cases i <;> fin_cases j <;>
    (simp [Matrix.add_apply, Matrix.smul_apply, Matrix.mul_apply,
       Matrix.one_apply, Fin.sum_univ_three, Matrix.vecHead, Matrix.vecTail,
       smul_eq_mul]
     try ring)

set_option maxHeartbeats 1000000 in
/-- The orthonormality defect of the guarded up rotation in closed form. -/
theorem rotmatT_mul_entries {u : Vec3} (hu : dot u u = 1) :
    Matrix.transpose (rotmat u ⟨0, 0, 1⟩) * rotmat u ⟨0, 0, 1⟩
      = 1 + gUp u • !![u.x ^ 2, u.x * u.y, 0;
                       u.x * u.y, u.y ^ 2, 0;
                       0, 0, u.x ^ 2 + u.y ^ 2] := by
  rw [rotmat_unit_entries hu]
  unfold gUp
  ext i j
  fin_cases i <;> fin_cases j <;>
    (simp [Matrix.transpose_apply, Matrix.mul_apply, Matrix.add_apply,
       Matrix.smul_apply, Matrix.one_apply, Fin.sum_univ_three,
       Matrix.vecHead, Matrix.vecTail, smul_eq_mul]
     try ring)

theorem gUp_mul_bound {u : Vec3} (hu : dot u u = 1) (hz : -(1 / 2 : ℝ) ≤ u.z) :
    abs (gUp u * (u.x ^ 2 + u.y ^ 2)) ≤ 5e-10 := by
  have hu' : u.x * u.x + u.y * u.y + u.z * u.z = 1 := hu
  have hs : u.x ^ 2 + u.y ^ 2 = 1 - u.z ^ 2 := by nlinarith [hu']
  have hz1 : u.z ≤ 1 := by
    nlinarith [sq_nonneg (u.z - 1), mul_self_nonneg u.x, mul_self_nonneg u.y]
  have hspos : (0 : ℝ) ≤ 1 - u.z ^ 2 := by nlinarith
  have hden : (0 : ℝ) < (1 - u.z ^ 2) + 1e-10 := by nlinarith
  have hg : gUp u = (2 * 1e-10 * u.z * (1 - u.z) + (1e-10) ^ 2)
      / ((1 - u.z ^ 2) + 1e-10) ^ 2 := by
    unfold gUp kUp
    rw [hs]
    field_simp
    ring
  rw [hg, hs, div_mul_eq_mul_div, abs_div,
    abs_of_pos (by positivity : (0 : ℝ) < ((1 - u.z ^ 2) + 1e-10) ^ 2),
    div_le_iff₀ (by positivity : (0 : ℝ) < ((1 - u.z ^ 2) + 1e-10) ^ 2)]
  rw [abs_le]
  have key1 : (0 : ℝ) ≤ (1 - u.z ^ 2) * ((1 - u.z) * (5 + 3 * u.z)) :=
    mul_nonneg hspos (mul_nonneg (by linarith) (by linarith))
  have key2 : (0 : ℝ) ≤ (1 - u.z ^ 2) * ((1 - u.z) * (7 * u.z + 5)) :=
    mul_nonneg hspos (mul_nonneg (by linarith) (by linarith))
  constructor
  · nlinarith [key2, hspos, sq_nonneg ((1 - u.z ^ 2) - 1e-10)]
  · nlinarith [key1, hspos, sq_nonneg ((1 - u.z ^ 2) - 1e-10)]

theorem rotmat_defect_entry {u : Vec3} (hu : dot u u = 1) (hz : -(1 / 2 : ℝ) ≤ u.z) :
    ∀ i j : Fin 3,
      abs ((Matrix.transpose (rotmat u ⟨0, 0, 1⟩) * rotmat u ⟨0, 0, 1⟩) i j
        - (1 : Matrix (Fin 3) (Fin 3) ℝ) i j) ≤ 5e-10 := by
  have hgs := gUp_mul_bound hu hz
  have hsnn : (0 : ℝ) ≤ u.x ^ 2 + u.y ^ 2 := by positivity
  have habs : ∀ c : ℝ, abs c ≤ u.x ^ 2 + u.y ^ 2 → abs (gUp u * c) ≤ 5e-10 := by
    intro c hc
    rw [abs_mul]
    rw [abs_mul, abs_of_nonneg hsnn] at hgs
    calc abs (gUp u) * abs c ≤ abs (gUp u) * (u.x ^ 2 + u.y ^ 2) :=
          mul_le_mul_of_nonneg_left hc (abs_nonneg _)
      _ ≤ 5e-10 := hgs
  intro i j
  rw [rotmatT_mul_entries hu]
  have hentry : (1 + gUp u • !![u.x ^ 2, u.x * u.y, 0;
        u.x * u.y, u.y ^ 2, 0; 0, 0, u.x ^ 2 + u.y ^ 2]) i j
      - (1 : Matrix (Fin 3) (Fin 3) ℝ) i j
      = gUp u * (!![u.x ^ 2, u.x * u.y, 0;
          u.x * u.y, u.y ^ 2, 0; 0, 0, u.x ^ 2 + u.y ^ 2] i j) := by
    rw [Matrix.add_apply, Matrix.smul_apply, smul_eq_mul]
    ring
  rw [hentry]
  have hxy : abs (u.x * u.y) ≤ u.x ^ 2 + u.y ^ 2 := by
    rw [abs_mul]
    nlinarith [sq_nonneg (abs u.x - abs u.y), sq_abs u.x, sq_abs u.y,
      abs_nonneg u.x, abs_nonneg u.y]
  have hzero : abs (gUp u * 0) ≤ 5e-10 := by
    rw [mul_zero, abs_zero]; norm_num
  have hx2 : abs (gUp u * u.x ^ 2) ≤ 5e-10 :=
    habs _ (by rw [abs_of_nonneg (by positivity : (0:ℝ) ≤ u.x ^ 2)]
               nlinarith [sq_nonneg u.y])
  have hy2 : abs (gUp u * u.y ^ 2) ≤ 5e-10 :=
    habs _ (by rw [abs_of_nonneg (by positivity : (0:ℝ) ≤ u.y ^ 2)]
               nlinarith [sq_nonneg u.x])
  have hss : abs (gUp u * (u.x ^ 2 + u.y ^ 2)) ≤ 5e-10 :=
    habs _ (by rw [abs_of_nonneg hsnn])
  have hxy2 : abs (gUp u * (u.x * u.y)) ≤ 5e-10 := habs _ hxy
  fin_cases i <;> fin_cases j
  · exact hx2
  · exact hxy2
  · exact hzero
  · exact hxy2
  · exact hy2
  · exact hzero
  · exact hzero
  · exact hzero
  · exact hss

theorem ortho_mul {A B : Matrix (Fin 3) (Fin 3) ℝ}
    (hA : Matrix.transpose A * A = 1) (hB : Matrix.transpose B * B = 1) :
    Matrix.transpose (A * B) * (A * B) = 1 := by
  rw [Matrix.transpose_mul]
  have h1 : Matrix.transpose B * Matrix.transpose A * (A * B)
      = Matrix.transpose B * (Matrix.transpose A * A) * B := by
    noncomm_ring
  rw [h1, hA, mul_one, hB]

theorem orthoTol_of_exact {B : Matrix (Fin 3) (Fin 3) ℝ}
    (h : Matrix.transpose B * B = 1) : orthoTol B 1e-5 := by
  intro i j
  rw [h, sub_self, abs_zero]
  norm_num

theorem ortho_entry_le_one {B : Matrix (Fin 3) (Fin 3) ℝ}
    (hB : Matrix.transpose B * B = 1) : ∀ a b : Fin 3, abs (B a b) ≤ 1 := by
  have hBcol : ∀ b : Fin 3,
      B 0 b * B 0 b + B 1 b * B 1 b + B 2 b * B 2 b = 1 := by
    intro b
    have hd := congrArg (fun M : Matrix (Fin 3) (Fin 3) ℝ => M b b) hB
    dsimp only at hd
    rw [Matrix.mul_apply, Fin.sum_univ_three] at hd
    simp only [Matrix.transpose_apply] at hd
    rw [hd, Matrix.one_apply_eq]
  intro a b
  have h3 := hBcol b
  have h0 := mul_self_nonneg (B 0 b)
  have h1 := mul_self_nonneg (B 1 b)
  have h2 := mul_self_nonneg (B 2 b)
  have hsq : B a b * B a b ≤ 1 := by
    fin_cases a
    · show B 0 b * B 0 b ≤ 1
      nlinarith
    · show B 1 b * B 1 b ≤ 1
      nlinarith
    · show B 2 b * B 2 b ≤ 1
      nlinarith
  exact abs_le_one_iff_mul_self_le_one.mpr hsq

set_option maxHeartbeats 1000000 in
/-- Left-multiplying an exactly orthonormal block by a rotation whose
    orthonormality defect is entrywise at most `5e-10` keeps every column dot
    product within `1e-5` of the identity. -/
theorem ortho_conj_tol (R B : Matrix (Fin 3) (Fin 3) ℝ)
    (hB : Matrix.transpose B * B = 1)
    (hR : ∀ i j : Fin 3,
      abs ((Matrix.transpose R * R) i j - (1 : Matrix (Fin 3) (Fin 3) ℝ) i j) ≤ 5e-10) :
    orthoTol (R * B) 1e-5 := by
  have hBe := ortho_entry_le_one hB
  have key : Matrix.transpose (R * B) * (R * B) - 1
      = Matrix.transpose B * (Matrix.transpose R * R - 1) * B := by
    rw [Matrix.transpose_mul]
    have h1 : Matrix.transpose B * Matrix.transpose R * (R * B)
        = Matrix.transpose B * (Matrix.transpose R * R) * B := by
      noncomm_ring
    rw [h1]
    have h2 : Matrix.transpose B * (Matrix.transpose R * R) * B
        = Matrix.transpose B * (Matrix.transpose R * R - 1) * B
          + Matrix.transpose B * B := by
      noncomm_ring
    rw [h2, hB]
    abel
  intro i j
  have hsub : (Matrix.transpose (R * B) * (R * B)) i j
      - (1 : Matrix (Fin 3) (Fin 3) ℝ) i j
      = (Matrix.transpose B * (Matrix.transpose R * R - 1) * B) i j := by
    rw [← key, Matrix.sub_apply]
  rw [hsub]
  have hterm : ∀ l k : Fin 3,
      abs (Matrix.transpose B i l * (Matrix.transpose R * R - 1) l k * B k j)
        ≤ 5e-10 := by
    intro l k
    rw [abs_mul, abs_mul]
    have e1 : abs (Matrix.transpose B i l) ≤ 1 := by
      rw [Matrix.transpose_apply]; exact hBe l i
    have e2 : abs ((Matrix.transpose R * R - 1) l k) ≤ 5e-10 := by
      rw [Matrix.sub_apply]; exact hR l k
    have e3 : abs (B k j) ≤ 1 := hBe k j
    calc abs (Matrix.transpose B i l) * abs ((Matrix.transpose R * R - 1) l k)
          * abs (B k j)
        ≤ 1 * 5e-10 * 1 := by
          apply mul_le_mul (mul_le_mul e1 e2 (abs_nonneg _) (by norm_num)) e3
            (abs_nonneg _) (by norm_num)
      _ = 5e-10 := by norm_num
  have hmid : ∀ k : Fin 3,
      abs ((Matrix.transpose B * (Matrix.transpose R * R - 1)) i k * B k j)
        ≤ 3 * 5e-10 := by
    intro k
    rw [Matrix.mul_apply, Fin.sum_univ_three]
    calc abs ((Matrix.transpose B i 0 * (Matrix.transpose R * R - 1) 0 k
          + Matrix.transpose B i 1 * (Matrix.transpose R * R - 1) 1 k
          + Matrix.transpose B i 2 * (Matrix.transpose R * R - 1) 2 k) * B k j)
        = abs (Matrix.transpose B i 0 * (Matrix.transpose R * R - 1) 0 k * B k j
          + Matrix.transpose B i 1 * (Matrix.transpose R * R - 1) 1 k * B k j
          + Matrix.transpose B i 2 * (Matrix.transpose R * R - 1) 2 k * B k j) := by
          ring_nf
      _ ≤ _ := by
          have t0 := hterm 0 k
          have t1 := hterm 1 k
          have t2 := hterm 2 k
          calc abs (Matrix.transpose B i 0 * (Matrix.transpose R * R - 1) 0 k * B k j
              + Matrix.transpose B i 1 * (Matrix.transpose R * R - 1) 1 k * B k j
              + Matrix.transpose B i 2 * (Matrix.transpose R * R - 1) 2 k * B k j)
              ≤ abs (Matrix.transpose B i 0 * (Matrix.transpose R * R - 1) 0 k * B k j
                + Matrix.transpose B i 1 * (Matrix.transpose R * R - 1) 1 k * B k j)
                + abs (Matrix.transpose B i 2 * (Matrix.transpose R * R - 1) 2 k * B k j) :=
                abs_add _ _
            _ ≤ abs (Matrix.transpose B i 0 * (Matrix.transpose R * R - 1) 0 k * B k j)
                + abs (Matrix.transpose B i 1 * (Matrix.transpose R * R - 1) 1 k * B k j)
                + abs (Matrix.transpose B i 2 * (Matrix.transpose R * R - 1) 2 k * B k j) := by
                have := abs_add
                  (Matrix.transpose B i 0 * (Matrix.transpose R * R - 1) 0 k * B k j)
                  (Matrix.transpose B i 1 * (Matrix.transpose R * R - 1) 1 k * B k j)
                linarith
            _ ≤ 3 * 5e-10 := by linarith
  rw [Matrix.mul_apply, Fin.sum_univ_three]
  calc abs ((Matrix.transpose B * (Matrix.transpose R * R - 1)) i 0 * B 0 j
        + (Matrix.transpose B * (Matrix.transpose R * R - 1)) i 1 * B 1 j
        + (Matrix.transpose B * (Matrix.transpose R * R - 1)) i 2 * B 2 j)
      ≤ abs ((Matrix.transpose B * (Matrix.transpose R * R - 1)) i 0 * B 0 j
        + (Matrix.transpose B * (Matrix.transpose R * R - 1)) i 1 * B 1 j)
        + abs ((Matrix.transpose B * (Matrix.transpose R * R - 1)) i 2 * B 2 j) :=
        abs_add _ _
    _ ≤ abs ((Matrix.transpose B * (Matrix.transpose R * R - 1)) i 0 * B 0 j)
        + abs ((Matrix.transpose B * (Matrix.transpose R * R - 1)) i 1 * B 1 j)
        + abs ((Matrix.transpose B * (Matrix.transpose R * R - 1)) i 2 * B 2 j) := by
        have := abs_add
          ((Matrix.transpose B * (Matrix.transpose R * R - 1)) i 0 * B 0 j)
          ((Matrix.transpose B * (Matrix.transpose R * R - 1)) i 1 * B 1 j)
        linarith
    _ ≤ 3 * 5e-10 + 3 * 5e-10 + 3 * 5e-10 := by
        have g0 := hmid 0
        have g1 := hmid 1
        have g2 := hmid 2
        linarith
    _ ≤ 1e-5 := by norm_num

set_option maxHeartbeats 1000000 in
theorem block3_pad4_mul (R : Matrix (Fin 3) (Fin 3) ℝ) (m : Mat4) :
    block3 (pad4 R * m) = R * block3 m := by
  unfold block3 pad4 mk4 vzero
  ext i j
  fin_cases i <;> fin_cases j <;>
    (simp [Matrix.mul_apply, Fin.sum_univ_four, Fin.sum_univ_three,
       Matrix.vecHead, Matrix.vecTail, Matrix.vecMul, Matrix.dotProduct]
     try ring)

theorem block3_stage3_mem (l : List Mat4) (m : Mat4) :
    block3 (Matrix.of fun i j =>
      if j = 3 ∧ i ≠ 3 then m i j - vcomp (attnPoint l) i else m i j) = block3 m := by
  unfold block3
  ext i j
  fin_cases i <;> fin_cases j <;> simp

theorem D3_ortho : Matrix.transpose D3 * D3 = 1 := by
  unfold D3
  ext i j
  fin_cases i <;> fin_cases j <;>
    (rw [Matrix.mul_apply, Fin.sum_univ_three]
     norm_num [Matrix.transpose_apply, Matrix.one_apply, Matrix.vecHead,
       Matrix.vecTail, Fin.ext_iff])

theorem P3_ortho : Matrix.transpose P3 * P3 = 1 := by
  unfold P3
  ext i j
  fin_cases i <;> fin_cases j <;>
    (rw [Matrix.mul_apply, Fin.sum_univ_three]
     norm_num [Matrix.transpose_apply, Matrix.one_apply, Matrix.vecHead,
       Matrix.vecTail, Fin.ext_iff])

theorem F3_ortho : Matrix.transpose F3 * F3 = 1 := by
  unfold F3
  ext i j
  fin_cases i <;> fin_cases j <;>
    (rw [Matrix.mul_apply, Fin.sum_univ_three]
     norm_num [Matrix.transpose_apply, Matrix.one_apply, Matrix.vecHead,
       Matrix.vecTail, Fin.ext_iff])

theorem rot3_inv_ortho {r : Fin 9 → ℝ}
    (h : Matrix.transpose (rot3 r) * rot3 r = 1) :
    Matrix.transpose (rot3 r)⁻¹ * (rot3 r)⁻¹ = 1 ∧ (rot3 r).det ≠ 0 := by
  have hinv : (rot3 r)⁻¹ = Matrix.transpose (rot3 r) := Matrix.inv_eq_left_inv h
  have hdet : (rot3 r).det ≠ 0 := by
    intro h0
    have hd := congrArg Matrix.det h
    rw [Matrix.det_mul, Matrix.det_transpose, h0, mul_zero, Matrix.det_one] at hd
    norm_num at hd
  refine ⟨?_, hdet⟩
  rw [hinv, Matrix.transpose_transpose]
  exact Matrix.mul_eq_one_comm.mp h

/-- C6 (amended): if all SfM rotations are orthonormal, the up-vector sum is
    nonzero, and the estimated unit up vector is not close to anti-parallel to
    `(0,0,1)` (`z`-component at least `-1/2`), then every frame's upper-left
    3x3 block is orthonormal within `1e-5` after each of the four stages.
    (Without the up-vector proviso stage 2 can violate the tolerance: see the
    counterexample.) -/
theorem C6_orthonormal_blocks_amended (ps : List SfmPose)
    (hortho : ∀ p ∈ ps, Matrix.transpose (rot3 p.rot) * rot3 p.rot = 1)
    (hne : upSum (stage1 ps) ≠ vzero)
    (hz : -(1 / 2 : ℝ) ≤ (upNormed (stage1 ps)).z) :
    (∀ m ∈ stage1 ps, orthoTol (block3 m) 1e-5)
    ∧ (∀ m ∈ stage2 (stage1 ps), orthoTol (block3 m) 1e-5)
    ∧ (∀ m ∈ stage3 (stage2 (stage1 ps)), orthoTol (block3 m) 1e-5)
    ∧ (∀ m ∈ stage4 (stage3 (stage2 (stage1 ps))), orthoTol (block3 m) 1e-5) := by
  have hb1 : ∀ m ∈ stage1 ps, Matrix.transpose (block3 m) * block3 m = 1 := by
    intro m hm
    unfold stage1 at hm
    rw [List.mem_map] at hm
    obtain ⟨p, hp, rfl⟩ := hm
    obtain ⟨hio, hdet⟩ := rot3_inv_ortho (hortho p hp)
    rw [poseC2w_eq p.center hdet, block3_mk4]
    exact ortho_mul (ortho_mul (ortho_mul D3_ortho P3_ortho) hio) F3_ortho
  have huu : dot (upNormed (stage1 ps)) (upNormed (stage1 ps)) = 1 := by
    unfold upNormed
    exact dot_vdiv_self hne
  have hb2 : ∀ m ∈ stage2 (stage1 ps), orthoTol (block3 m) 1e-5 := by
    intro m hm
    unfold stage2 at hm
    rw [List.mem_map] at hm
    obtain ⟨m1, hm1, rfl⟩ := hm
    rw [block3_pad4_mul]
    unfold upR
    exact ortho_conj_tol _ _ (hb1 m1 hm1) (rotmat_defect_entry huu hz)
  have hb3 : ∀ m ∈ stage3 (stage2 (stage1 ps)), orthoTol (block3 m) 1e-5 := by
    intro m hm
    unfold stage3 at hm
    rw [List.mem_map] at hm
    obtain ⟨m2, hm2, rfl⟩ := hm
    rw [block3_stage3_mem]
    exact hb2 m2 hm2
  have hb4 : ∀ m ∈ stage4 (stage3 (stage2 (stage1 ps))), orthoTol (block3 m) 1e-5 := by
    intro m hm
    unfold stage4 at hm
    rw [List.mem_map] at hm
    obtain ⟨m3, hm3, rfl⟩ := hm
    rw [block3_stage4_mem]
    exact hb3 m3 hm3
  exact ⟨fun m hm => orthoTol_of_exact (hb1 m hm), hb2, hb3, hb4⟩

theorem vadd_vzero_left (v : Vec3) : vadd vzero v = v := by
  unfold vadd vzero
  rw [Vec3.ext_iff']
  norm_num

theorem upSum_singleton (m : Mat4) : upSum [m] = colv m 1 := by
  unfold upSum
  rw [List.foldl_cons, List.foldl_nil, vadd_vzero_left]

set_option maxHeartbeats 1000000 in
theorem D3P3F3_val : D3 * P3 * F3 = !![(0 : ℝ), -1, 0; 1, 0, 0; 0, 0, 1] := by
  unfold D3 P3 F3
  ext i j
  fin_cases i <;> fin_cases j <;>
    (simp [Matrix.mul_apply, Fin.sum_univ_three, Matrix.vecHead, Matrix.vecTail,
       Matrix.vecMul, Matrix.dotProduct]
     try norm_num)

/-- C6 witness: a single identity-rotation camera satisfies the hypotheses
    (orthonormal input rotation, nonzero up sum, up vector far from
    anti-parallel), and all stage-1 blocks are orthonormal within `1e-5`. -/
theorem C6_orthonormal_blocks_amended_witness :
    (∀ p ∈ [(⟨![1, 0, 0, 0, 1, 0, 0, 0, 1], vzero⟩ : SfmPose)],
        Matrix.transpose (rot3 p.rot) * rot3 p.rot = 1)
    ∧ upSum (stage1 [(⟨![1, 0, 0, 0, 1, 0, 0, 0, 1], vzero⟩ : SfmPose)]) ≠ vzero
    ∧ -(1 / 2 : ℝ) ≤ (upNormed (stage1 [(⟨![1, 0, 0, 0, 1, 0, 0, 0, 1], vzero⟩ : SfmPose)])).z
    ∧ ∀ m ∈ stage1 [(⟨![1, 0, 0, 0, 1, 0, 0, 0, 1], vzero⟩ : SfmPose)],
        orthoTol (block3 m) 1e-5 := by
  have hr : rot3 ![1, 0, 0, 0, 1, 0, 0, 0, 1] = (1 : Matrix (Fin 3) (Fin 3) ℝ) := by
    ext i j
    fin_cases i <;> fin_cases j <;> rfl
  have hortho : ∀ p ∈ [(⟨![1, 0, 0, 0, 1, 0, 0, 0, 1], vzero⟩ : SfmPose)],
      Matrix.transpose (rot3 p.rot) * rot3 p.rot = 1 := by
    intro p hp
    rw [List.mem_singleton] at hp
    subst hp
    show Matrix.transpose (rot3 ![1, 0, 0, 0, 1, 0, 0, 0, 1])
        * rot3 ![1, 0, 0, 0, 1, 0, 0, 0, 1] = 1
    rw [hr, Matrix.transpose_one, one_mul]
  have hdet : (rot3 ![1, 0, 0, 0, 1, 0, 0, 0, 1]).det ≠ 0 := by
    rw [hr, Matrix.det_one]
    norm_num
  have hstage1 : stage1 [(⟨![1, 0, 0, 0, 1, 0, 0, 0, 1], vzero⟩ : SfmPose)]
      = [mk4 (!![(0 : ℝ), -1, 0; 1, 0, 0; 0, 0, 1]) ⟨vzero.y, vzero.x, -vzero.z⟩] := by
    unfold stage1
    simp only [List.map_cons, List.map_nil]
    rw [poseC2w_eq vzero hdet, hr, inv_one, mul_one, D3P3F3_val]
  have hup : upSum (stage1 [(⟨![1, 0, 0, 0, 1, 0, 0, 0, 1], vzero⟩ : SfmPose)])
      = ⟨-1, 0, 0⟩ := by
    rw [hstage1, upSum_singleton, colv_mk4_one]
    rw [Vec3.ext_iff']
    exact ⟨rfl, rfl, rfl⟩
  have hne : upSum (stage1 [(⟨![1, 0, 0, 0, 1, 0, 0, 0, 1], vzero⟩ : SfmPose)]) ≠ vzero := by
    rw [hup]
    intro e
    rw [Vec3.ext_iff'] at e
    unfold vzero at e
    norm_num at e
  have hunit : dot (⟨-1, 0, 0⟩ : Vec3) ⟨-1, 0, 0⟩ = 1 := by
    unfold dot
    norm_num
  have hupn : upNormed (stage1 [(⟨![1, 0, 0, 0, 1, 0, 0, 0, 1], vzero⟩ : SfmPose)])
      = ⟨-1, 0, 0⟩ := by
    unfold upNormed
    rw [hup, norm3_of_dot_one hunit, vdiv_one]
  have hz : -(1 / 2 : ℝ)
      ≤ (upNormed (stage1 [(⟨![1, 0, 0, 0, 1, 0, 0, 0, 1], vzero⟩ : SfmPose)])).z := by
    rw [hupn]
    norm_num
  obtain ⟨h1, -, -, -⟩ := C6_orthonormal_blocks_amended _ hortho hne hz
  exact ⟨hortho, hne, hz, h1⟩

set_option maxHeartbeats 4000000 in
/-- C6 counterexample: a single camera whose orthonormal SfM rotation makes
    the estimated up vector nearly anti-parallel to `(0,0,1)`
    (`u = (2000/1000001, 0, -999999/1000001)`).  The `1e-10` guard in the
    Rodrigues denominator then makes the stage-2 up rotation measurably
    non-orthogonal: the first column of the stage-2 block has squared norm
    about `0.9999`, so orthonormality within `1e-5` fails after the Up-Vector
    Estimator even though the input rotation is exactly orthonormal. -/
theorem C6_ortho_cex :
    (∀ p ∈ [(⟨![0, 0, -1, -999999/1000001, -(2000/1000001), 0,
          2000/1000001, -999999/1000001, 0], vzero⟩ : SfmPose)],
        Matrix.transpose (rot3 p.rot) * rot3 p.rot = 1)
    ∧ ¬ (∀ m ∈ stage2 (stage1 [(⟨![0, 0, -1, -999999/1000001, -(2000/1000001), 0,
          2000/1000001, -999999/1000001, 0], vzero⟩ : SfmPose)]),
        orthoTol (block3 m) 1e-5) := by
  have hrot : rot3 ![0, 0, -1, -999999/1000001, -(2000/1000001), 0,
        2000/1000001, -999999/1000001, 0]
      = !![(0 : ℝ), -999999/1000001, 2000/1000001;
           0, -(2000/1000001), -999999/1000001;
           -1, 0, 0] := by
    ext i j
    fin_cases i <;> fin_cases j <;> rfl
  have hortho : ∀ p ∈ [(⟨![0, 0, -1, -999999/1000001, -(2000/1000001), 0,
        2000/1000001, -999999/1000001, 0], vzero⟩ : SfmPose)],
      Matrix.transpose (rot3 p.rot) * rot3 p.rot = 1 := by
    intro p hp
    rw [List.mem_singleton] at hp
    subst hp
    show Matrix.transpose (rot3 ![0, 0, -1, -999999/1000001, -(2000/1000001), 0,
        2000/1000001, -999999/1000001, 0])
      * rot3 ![0, 0, -1, -999999/1000001, -(2000/1000001), 0,
        2000/1000001, -999999/1000001, 0] = 1
    rw [hrot]
    ext i j
    fin_cases i <;> fin_cases j <;>
      (rw [Matrix.mul_apply, Fin.sum_univ_three]
       norm_num [Matrix.transpose_apply, Matrix.one_apply, Matrix.vecHead,
         Matrix.vecTail, Fin.ext_iff])
  have hdetC : (rot3 ![0, 0, -1, -999999/1000001, -(2000/1000001), 0,
      2000/1000001, -999999/1000001, 0]).det ≠ 0 :=
    (rot3_inv_ortho (hortho _ (List.mem_singleton.mpr rfl))).2
  have hinvC : (rot3 ![0, 0, -1, -999999/1000001, -(2000/1000001), 0,
        2000/1000001, -999999/1000001, 0])⁻¹
      = Matrix.transpose (rot3 ![0, 0, -1, -999999/1000001, -(2000/1000001), 0,
        2000/1000001, -999999/1000001, 0]) :=
    Matrix.inv_eq_left_inv (hortho _ (List.mem_singleton.mpr rfl))
  have hC : D3 * P3 * (rot3 ![0, 0, -1, -999999/1000001, -(2000/1000001), 0,
        2000/1000001, -999999/1000001, 0])⁻¹ * F3
      = !![(-999999/1000001 : ℝ), 2000/1000001, 0;
           0, 0, 1;
           -(2000/1000001), -999999/1000001, 0] := by
    rw [hinvC, hrot]
    unfold D3 P3 F3
    ext i j
    fin_cases i <;> fin_cases j <;>
      (simp [Matrix.mul_apply, Fin.sum_univ_three, Matrix.transpose_apply,
         Matrix.vecHead, Matrix.vecTail, Matrix.vecMul, Matrix.dotProduct]
       try norm_num)
  have hstage1 : stage1 [(⟨![0, 0, -1, -999999/1000001, -(2000/1000001), 0,
        2000/1000001, -999999/1000001, 0], vzero⟩ : SfmPose)]
      = [mk4 (!![(-999999/1000001 : ℝ), 2000/1000001, 0;
           0, 0, 1;
           -(2000/1000001), -999999/1000001, 0]) ⟨vzero.y, vzero.x, -vzero.z⟩] := by
    unfold stage1
    simp only [List.map_cons, List.map_nil]
    rw [poseC2w_eq vzero hdetC, hC]
  have hup : upSum (stage1 [(⟨![0, 0, -1, -999999/1000001, -(2000/1000001), 0,
        2000/1000001, -999999/1000001, 0], vzero⟩ : SfmPose)])
      = ⟨2000/1000001, 0, -999999/1000001⟩ := by
    rw [hstage1, upSum_singleton, colv_mk4_one]
    rw [Vec3.ext_iff']
    exact ⟨rfl, rfl, rfl⟩
  have hunit : dot (⟨2000/1000001, 0, -999999/1000001⟩ : Vec3)
      ⟨2000/1000001, 0, -999999/1000001⟩ = 1 := by
    unfold dot
    norm_num
  have hupn : upNormed (stage1 [(⟨![0, 0, -1, -999999/1000001, -(2000/1000001), 0,
        2000/1000001, -999999/1000001, 0], vzero⟩ : SfmPose)])
      = ⟨2000/1000001, 0, -999999/1000001⟩ := by
    unfold upNormed
    rw [hup, norm3_of_dot_one hunit, vdiv_one]
  refine ⟨hortho, ?_⟩
  intro hall
  have hmem : pad4 (upR (stage1 [(⟨![0, 0, -1, -999999/1000001, -(2000/1000001), 0,
        2000/1000001, -999999/1000001, 0], vzero⟩ : SfmPose)]))
      * mk4 (!![(-999999/1000001 : ℝ), 2000/1000001, 0;
           0, 0, 1;
           -(2000/1000001), -999999/1000001, 0]) ⟨vzero.y, vzero.x, -vzero.z⟩
      ∈ stage2 (stage1 [(⟨![0, 0, -1, -999999/1000001, -(2000/1000001), 0,
        2000/1000001, -999999/1000001, 0], vzero⟩ : SfmPose)]) := by
    unfold stage2
    rw [List.mem_map]
    refine ⟨_, ?_, rfl⟩
    rw [hstage1]
    exact List.mem_singleton.mpr rfl
  have h00 := hall _ hmem 0 0
  rw [block3_pad4_mul, block3_mk4] at h00
  unfold upR at h00
  rw [hupn, rotmat_unit_entries hunit] at h00
  unfold kUp at h00
  rw [Matrix.mul_apply, Fin.sum_univ_three] at h00
  norm_num [Matrix.mul_apply, Fin.sum_univ_three, Matrix.transpose_apply,
    Matrix.one_apply, Matrix.vecHead, Matrix.vecTail] at h00
  have hx : (1 / 100000 : ℝ)
      < 159999839995999991999996000000 / 1600080001160004080006000004000001 := by
    norm_num
  have hy := le_trans (le_abs_self
    ((159999839995999991999996000000 : ℝ) / 1600080001160004080006000004000001)) h00
  linarith

end

end Meshroom2Nerf
